import Mathlib

/-!
Verification development for the Donet schema compiler and wire layer.

The Rust sources are embedded shallowly:

* machine integers become `Nat` / `Int`, with an explicit `% 2 ^ w` (or
  `Int.bmod`) exactly where the Rust code can wrap, and `as u8` casts become
  `% 256`; a `u16` operation that can overflow (the prime sieve's
  `primes[j] * primes[j]`, `candidate + 1`, `last + 1`) carries an explicit
  `< 65536` guard whose failure is a panic value — Rust's checked (debug)
  semantics; the definitions' comments note why release wrapping reaches a
  panic or garbage on the same inputs;
* fallible code returns `Except`/`Option`; a Rust `panic!` (a failed
  `unwrap`/`assert!`) is a dedicated error value, distinct from the error
  values the source returns deliberately;
* `Vec<u8>` buffers become `List Nat` (each entry a byte value);
* Rust `&str`/`String` arguments whose only observed use is their UTF-8
  byte sequence are taken as that byte sequence (`List Nat`), matching
  `String::into_bytes` / `str::len`.

Loops whose iteration count is not structurally bounded take an explicit
fuel argument; exhausted fuel is an error value that is proved unreachable
(or left visibly distinct from genuine source behaviour) in the theorems.
-/

instance {ε α : Type} [DecidableEq ε] [DecidableEq α] :
    DecidableEq (Except ε α) := fun x y =>
  match x, y with
  | .ok a, .ok b =>
    if h : a = b then isTrue (by rw [h]) else isFalse (by simp [h])
  | .error a, .error b =>
    if h : a = b then isTrue (by rw [h]) else isFalse (by simp [h])
  | .ok _, .error _ => isFalse (by simp)
  | .error _, .ok _ => isFalse (by simp)

namespace Dg

/-- Errors of the datagram module.  `overflow` is `DgError::DatagramOverflow`,
the only inhabitant of the source's `DgError` enum.  `panicked` is not a
source error value: it models a Rust panic (`try_into().unwrap()` failing in
`add_blob` when the input length exceeds `u16`). -/
inductive DgErr where
  | overflow
  | panicked
  deriving DecidableEq, Repr

abbrev DgResult := Except DgErr Unit

/-- `DG_SIZE_MAX: DgSize = u16::MAX` from the source. -/
def DG_SIZE_MAX : Nat := 65535

/-- `endianness::swap_le_16` on a little-endian host: the identity. -/
def swap_le_16 (v : Nat) : Nat := v

/-- `endianness::swap_le_32` on a little-endian host: the identity. -/
def swap_le_32 (v : Nat) : Nat := v

/-- `endianness::swap_le_64` on a little-endian host: the identity. -/
def swap_le_64 (v : Nat) : Nat := v

/-- The `Datagram` struct: an append-only byte buffer. -/
structure Datagram where
  buffer : List Nat
  deriving DecidableEq, Repr

def Datagram.new : Datagram := ⟨[]⟩

/-- `Datagram::check_add_length`: fails iff the buffer would grow past
`DG_SIZE_MAX` bytes. -/
def check_add_length (d : Datagram) (length : Nat) : DgResult :=
  if d.buffer.length + length > DG_SIZE_MAX then .error .overflow else .ok ()

/-- `Datagram::add_u8`.  The argument is a `u8` value (`< 256`); it is pushed
verbatim, as in the source. -/
def add_u8 (d : Datagram) (v : Nat) : Datagram × DgResult :=
  match check_add_length d 1 with
  | .error e => (d, .error e)
  | .ok _ => (⟨d.buffer ++ [v]⟩, .ok ())

/-- `Datagram::add_bool`: checks one byte, then delegates to `add_u8 1/0`. -/
def add_bool (d : Datagram) (v : Bool) : Datagram × DgResult :=
  match check_add_length d 1 with
  | .error e => (d, .error e)
  | .ok _ => if v then add_u8 d 1 else add_u8 d 0

/-- `Datagram::add_u16`.  The two pushes are transcribed literally from the
source: `(v & 0xff00) as u8` and `((v & 0x00ff) << 8) as u8`, where the `u16`
shift stays inside `% 65536` and the `as u8` cast is `% 256`. -/
def add_u16 (d : Datagram) (v : Nat) : Datagram × DgResult :=
  match check_add_length d 2 with
  | .error e => (d, .error e)
  | .ok _ =>
    let v := swap_le_16 v
    (⟨d.buffer ++ [(v &&& 0xff00) % 256,
                   ((v &&& 0x00ff) <<< 8) % 65536 % 256]⟩, .ok ())

/-- `Datagram::add_u32`, pushes transcribed literally from the source. -/
def add_u32 (d : Datagram) (v : Nat) : Datagram × DgResult :=
  match check_add_length d 4 with
  | .error e => (d, .error e)
  | .ok _ =>
    let v := swap_le_32 v
    (⟨d.buffer ++ [(v &&& 0xff000000) % 256,
                   ((v &&& 0x00ff0000) <<< 8) % 4294967296 % 256,
                   ((v &&& 0x0000ff00) <<< 16) % 4294967296 % 256,
                   ((v &&& 0x000000ff) <<< 24) % 4294967296 % 256]⟩, .ok ())

/-- `Datagram::add_u64`, pushes transcribed literally from the source. -/
def add_u64 (d : Datagram) (v : Nat) : Datagram × DgResult :=
  match check_add_length d 8 with
  | .error e => (d, .error e)
  | .ok _ =>
    let v := swap_le_64 v
    (⟨d.buffer ++ [(v &&& 0xff00000000000000) % 256,
                   ((v &&& 0x00ff000000000000) <<< 8) % 18446744073709551616 % 256,
                   ((v &&& 0x0000ff0000000000) <<< 16) % 18446744073709551616 % 256,
                   ((v &&& 0x000000ff00000000) <<< 24) % 18446744073709551616 % 256,
                   ((v &&& 0x00000000ff000000) <<< 32) % 18446744073709551616 % 256,
                   ((v &&& 0x0000000000ff0000) <<< 40) % 18446744073709551616 % 256,
                   ((v &&& 0x000000000000ff00) <<< 48) % 18446744073709551616 % 256,
                   ((v &&& 0x00000000000000ff) <<< 56) % 18446744073709551616 % 256]⟩,
     .ok ())

/-- `Datagram::add_i8`: `v as u8` is the two's-complement reinterpretation. -/
def add_i8 (d : Datagram) (v : Int) : Datagram × DgResult :=
  add_u8 d (v % 256).toNat

/-- `Datagram::add_i16`. -/
def add_i16 (d : Datagram) (v : Int) : Datagram × DgResult :=
  add_u16 d (v % 65536).toNat

/-- `Datagram::add_i32`. -/
def add_i32 (d : Datagram) (v : Int) : Datagram × DgResult :=
  add_u32 d (v % 4294967296).toNat

/-- `Datagram::add_i64`. -/
def add_i64 (d : Datagram) (v : Int) : Datagram × DgResult :=
  add_u64 d (v % 18446744073709551616).toNat

/-- `Datagram::add_f32` is `self.add_u32(v as u32)`.  IEEE-754 arithmetic is
not modelled; the argument here is the `u32` result of the source's numeric
cast, so every statement below about `add_f32` holds for every possible cast
result. -/
def add_f32 (d : Datagram) (v : Nat) : Datagram × DgResult :=
  add_u32 d v

/-- `Datagram::add_f64`, as `add_f32`. -/
def add_f64 (d : Datagram) (v : Nat) : Datagram × DgResult :=
  add_u64 d v

/-- `Datagram::add_size`. -/
def add_size (d : Datagram) (v : Nat) : Datagram × DgResult :=
  add_u16 d v

/-- `Datagram::add_channel` (`types::Channel = u64`; `types.rs` is not in the
sources, the width is the spec's 64-bit channel id). -/
def add_channel (d : Datagram) (v : Nat) : Datagram × DgResult :=
  add_u64 d v

/-- `Datagram::add_doid` (32-bit object id). -/
def add_doid (d : Datagram) (v : Nat) : Datagram × DgResult :=
  add_u32 d v

/-- `Datagram::add_zone` (32-bit zone id). -/
def add_zone (d : Datagram) (v : Nat) : Datagram × DgResult :=
  add_u32 d v

/-- `Datagram::add_location`: `add_u32(parent)` then `add_u32(zone)`; the
error of the first call is returned as is, with the parent already written. -/
def add_location (d : Datagram) (parent zone : Nat) : Datagram × DgResult :=
  match add_u32 d parent with
  | (d1, .error e) => (d1, .error e)
  | (d1, .ok _) => add_u32 d1 zone

/-- `Datagram::add_data`: raw bytes, rejected up front when longer than
`DG_SIZE_MAX`, then length-checked and appended. -/
def add_data (d : Datagram) (v : List Nat) : Datagram × DgResult :=
  if v.length > DG_SIZE_MAX then (d, .error .overflow)
  else match check_add_length d v.length with
  | .error e => (d, .error e)
  | .ok _ => (⟨d.buffer ++ v⟩, .ok ())

/-- `Datagram::add_datagram`: appends another datagram's buffer. -/
def add_datagram (d : Datagram) (dg : Datagram) : Datagram × DgResult :=
  if dg.buffer.length > DG_SIZE_MAX then (d, .error .overflow)
  else match check_add_length d dg.buffer.length with
  | .error e => (d, .error e)
  | .ok _ => (⟨d.buffer ++ dg.buffer⟩, .ok ())

/-- `Datagram::add_string` over the argument's UTF-8 bytes.  Transcribed
faithfully: after the `add_u16` length tag succeeds and the remaining
capacity check passes, the source returns `Ok` **without appending the
string bytes** (the conversion is missing, see the `FIXME` in the source). -/
def add_string (d : Datagram) (v : List Nat) : Datagram × DgResult :=
  if v.length > DG_SIZE_MAX then (d, .error .overflow)
  else match add_u16 d v.length with
  | (d1, .error e) => (d1, .error e)
  | (d1, .ok _) =>
    match check_add_length d1 v.length with
    | .error e => (d1, .error e)
    | .ok _ => (d1, .ok ())

/-- `Datagram::add_blob`: `add_size(len)` (which panics on `try_into` if the
length exceeds `u16`), then a capacity check, then the payload append.  The
length tag is already in the buffer when the capacity check fails. -/
def add_blob (d : Datagram) (v : List Nat) : Datagram × DgResult :=
  if v.length > DG_SIZE_MAX then (d, .error .panicked)
  else match add_size d v.length with
  | (d1, .error e) => (d1, .error e)
  | (d1, .ok _) =>
    match check_add_length d1 v.length with
    | .error e => (d1, .error e)
    | .ok _ => (⟨d1.buffer ++ v⟩, .ok ())

end Dg

namespace Parser

/-- One import record, as built by `DCImport::new(module, symbols)`.
Modelled from the spec: `dcfile.rs` is not among the sources; §3 describes a
`DCImport` as a module path with the class symbols bound to it. -/
structure DCImport where
  module : String
  symbols : List String
  deriving DecidableEq, Repr

/-- Modelled from the spec: `DCFile::new()` — the parse target starts empty
(`dcfile.rs` is not among the sources; §3 DCFile, append-only during
parse). -/
structure DCFile where
  imports : List DCImport
  deriving DecidableEq, Repr

def DCFile.new : DCFile := ⟨[]⟩

/-- Modelled from the spec: `DCFile::add_python_import` appends one import
record to the model (§3: append-only during parse). -/
def add_python_import (f : DCFile) (imp : DCImport) : DCFile :=
  ⟨f.imports ++ [imp]⟩

/-- Modelled from the spec: `get_num_imports` exposes the number of import
records (§4.2). -/
def get_num_imports (f : DCFile) : Nat :=
  f.imports.length

/-- The `for (i, module_suffix) in mvs_opt.unwrap().into_iter().enumerate()`
loop of the `python_import` production (libdonet `dcparser.rs`).  Each pass
reads `class_symbols.get(i + 1).unwrap()` and pushes one record into the
file; the result pairs the file after all pushes that actually executed with
`true` iff the `unwrap` panicked (index out of range). -/
def importLoop (f : DCFile) (m : String) (class_symbols : List String) :
    List String → Nat → DCFile × Bool
  | [], _ => (f, false)
  | module_suffix :: rest, i =>
    match class_symbols.get? (i + 1) with
    | none => (f, true)
    | some c_symbol =>
      importLoop (add_python_import f ⟨m ++ module_suffix, [c_symbol]⟩)
        m class_symbols rest (i + 1)

/-- Action of the `python_import` production (libdonet `dcparser.rs`),
applied to the current value `f` of the `DC_FILE` static.  `m` is the joined
module path, `ms` its view suffixes, `c` the class name, `cs` its view
suffixes.  Faithful to the source: `class_symbols` is the class name plus
one `c ++ suffix` symbol per class suffix; with no module suffixes one
record carries all class symbols; otherwise the bare module binds `[c]` and
each module suffix `i` binds `[class_symbols[i+1]]`, panicking when that
index is out of range. -/
def python_import (f : DCFile) (m : String) (ms : List String) (c : String)
    (cs : List String) : DCFile × Bool :=
  let class_symbols := c :: cs.map (fun s => c ++ s)
  if ms.isEmpty then (add_python_import f ⟨m, class_symbols⟩, false)
  else importLoop (add_python_import f ⟨m, [c]⟩) m class_symbols ms 0

/-- The `py_module` production joins the module identifiers with `'.'`
separators (first one bare). -/
def joinModules : List String → String
  | [] => ""
  | m :: rest => rest.foldl (fun acc x => acc ++ "." ++ x) m

/-- Statement-side definition for claim C3, written from the spec's words
(§4.1), to be compared with the source-side `python_import`: no module
suffixes give one record binding all class symbols `[C, C+s1, …, C+sk]` to
`M`; with module suffixes the first record binds `M` to the bare class
symbol and the i-th suffix record binds `M+suffix_i` to the (i+1)-th class
symbol (positional pairing). -/
def pythonImportSpec (m c : String) (ms cs : List String) : List DCImport :=
  if ms.isEmpty then [⟨m, c :: cs.map (fun s => c ++ s)⟩]
  else ⟨m, [c]⟩ :: (ms.zip cs).map (fun p => ⟨m ++ p.1, [c ++ p.2]⟩)

/-- A declaration, as consumed by the declaration-level model of `parse`:
either a python-import statement (with its module path, module suffixes,
class name and class suffixes), or a declaration whose tokens do not parse.
All other declaration kinds of the libdonet grammar have `{}` actions that
never touch `DC_FILE`, so they need no separate representative here. -/
inductive TypeDecl where
  | pyImport (m : String) (ms : List String) (c : String) (cs : List String)
  | badToken
  deriving DecidableEq, Repr

inductive ParseErr where
  | unexpectedToken
  | panicked
  deriving DecidableEq, Repr

/-- Declaration-level model of `parse` over the libdonet grammar: the LR
engine reduces each completed `type_decl` in order, running its action
(which for `python_import` pushes records into the `DC_FILE` static `f`)
before the next declaration's tokens are consumed; the first failing
declaration aborts with an error, and nothing ever resets the static.  The
returned `DCFile` is the value the static holds afterwards. -/
def runParse (f : DCFile) : List TypeDecl → Except ParseErr Unit × DCFile
  | [] => (.ok (), f)
  | .badToken :: _ => (.error .unexpectedToken, f)
  | .pyImport m ms c cs :: rest =>
    match python_import f m ms c cs with
    | (f2, true) => (.error .panicked, f2)
    | (f2, false) => runParse f2 rest

end Parser

namespace Hg

/-- Inner `while` loop of `PrimeNumberGenerator::get_prime`
(donet-core `hashgen.rs`), testing `candidate` against the cached primes in
order.  The cache is a `Vec<u16>` and the loop condition computes
`primes[j] * primes[j]` in `u16`: when that square reaches `2 ^ 16` the
multiplication overflows — a panic under Rust's checked (debug) arithmetic,
modelled as `none`; under release wrapping the comparison is garbage and the
loop likewise never computes a correct verdict.  `some true`/`some false`
are the loop's `maybe_prime` verdicts; `none` also models the panic of
`assert!(j < self.primes.len())` (after `j += 1` the assert fires when the
list is exhausted — also when the divisor just found was the last cached
prime).  The divisibility test is the source's
`primes[j] * (candidate / primes[j]) == candidate`; its products never
exceed `candidate`, so it cannot overflow on its own. -/
def trialDiv (candidate : Nat) : List Nat → Option Bool
  | [] => none
  | q :: rest =>
    if q * q < 65536 then
      if q * q ≤ candidate then
        if q * (candidate / q) = candidate then
          if rest.isEmpty then none else some false
        else trialDiv candidate rest
      else some true
    else none

/-- Outer `while self.primes.len() <= n` loop of `get_prime`: test
`candidate`, push it when the trial division survives, advance, repeat.
`candidate` is a `u16`, so `candidate += 1` overflows at 65535 — again a
checked-arithmetic panic, modelled as `none` (wrapping around to 0 would
only re-scan candidates already in the cache and never terminate).  `fuel`
bounds the number of candidates examined (the Rust loop has no such bound;
every use below either proves the given fuel sufficient or carries the
success as a hypothesis), and `none` also reports exhausted fuel or the
inner loop's panic. -/
def growPrimes (fuel : Nat) (primes : List Nat) (candidate n : Nat) :
    Option (List Nat) :=
  if primes.length ≤ n then
    match fuel with
    | 0 => none
    | fuel + 1 =>
      match trialDiv candidate primes with
      | none => none
      | some true =>
        if candidate + 1 < 65536 then
          growPrimes fuel (primes ++ [candidate]) (candidate + 1) n
        else none
      | some false =>
        if candidate + 1 < 65536 then growPrimes fuel primes (candidate + 1) n
        else none
  else some primes

/-- `PrimeNumberGenerator::get_prime`: the first candidate is one past the
last cached prime (`self.primes.last().unwrap() + 1_u16` — a `u16` add that
overflows, hence panics, when the last cached entry is 65535), the cache is
grown until it covers index `n`, and entry `n` is returned together with
the new cache.  The two `unwrap`s (empty cache / index still out of range)
are `none`. -/
def get_prime (fuel : Nat) (primes : List Nat) (n : Nat) :
    Option (Nat × List Nat) :=
  match primes.getLast? with
  | none => none
  | some last =>
    if last + 1 < 65536 then
      match growPrimes fuel primes (last + 1) n with
      | none => none
      | some primes2 =>
        match primes2.get? n with
        | none => none
        | some p => some (p, primes2)
    else none

/-- Kernel-friendly primality test used on the statement side. -/
def primeB (q : Nat) : Bool :=
  @decide (Nat.Prime q) (Nat.decidablePrime1 q)

/-- The ascending list of all primes below `c`: the statement-side
description of the generator's cache. -/
def primesBelowList (c : Nat) : List Nat :=
  (List.range c).filter primeB

/-- A cache value of the generator's own making: exactly the primes below
some bound `c ≥ 3` (freshly constructed it is `[2] = primesBelowList 3`).
Every entry is a `u16`, so the bound never exceeds `2 ^ 16`. -/
def PrimesState (l : List Nat) : Prop :=
  ∃ c, 3 ≤ c ∧ c ≤ 65536 ∧ l = primesBelowList c

/-- Modelled from the spec: `MAX_PRIME_NUMBERS` from `globals.rs` (not among
the sources) is the fixed bound on the rotating prime index ("index =
(index+1) mod a fixed bound", §4.3).  The spec fixes no concrete value, only
that it is one fixed positive constant; none of the theorems below depend on
the particular number. -/
def MAX_PRIME_NUMBERS : Nat := 10000

/-- Errors of the hash-generator embedding.  `assertFailed` is the
`assert!(self.index < MAX_PRIME_NUMBERS)` panic at the top of `add_int`;
`lenPanic` is `blob.len().try_into().unwrap()` failing in `add_blob`;
`primeLookupFailed` covers the `Option` failures of the embedded
`get_prime` (exhausted fuel, the sieve's internal assert, or a `u16`
overflow in the sieve — the last one reachable: see
`claim_C8_counterexample` and `get_prime_panics`). -/
inductive HgErr where
  | assertFailed
  | lenPanic
  | primeLookupFailed
  deriving DecidableEq, Repr

/-- The `DCHashGenerator` struct: signed 32-bit accumulator (`Int`, kept in
two's-complement range by the wrap-around), rotating index, prime cache.
`Default` gives hash 0, index 0, cache `[2]`. -/
structure DCHashGenerator where
  hash : Int
  index : Nat
  primes : List Nat
  deriving DecidableEq, Repr

def DCHashGenerator.default : DCHashGenerator := ⟨0, 0, [2]⟩

/-- Fuel handed to the embedded `get_prime` inside `add_int`: one unit per
candidate up to `2 ^ (index + 1)`, proved sufficient via Bertrand's
postulate (`nth_prime_le_pow`).  The Rust loop needs no fuel; this bound is
a device of the embedding only. -/
def primeFuel (n : Nat) : Nat := 2 ^ (n + 1) + 2

/-- `DCHashGenerator::add_int`: assert the index bound, fetch (growing the
cache if needed) the prime for the current index, accumulate
`prime * number` into the accumulator — `Int.bmod · (2 ^ 32)` is `i32`
two's-complement wrap-around, the arithmetic the source documents ("we also
truncate the result to the low-order 32 bits") — and step the index modulo
the fixed bound. -/
def add_int (g : DCHashGenerator) (number : Int) :
    Except HgErr DCHashGenerator :=
  if g.index < MAX_PRIME_NUMBERS then
    match get_prime (primeFuel g.index) g.primes g.index with
    | none => .error .primeLookupFailed
    | some (p, primes2) =>
      .ok { hash := Int.bmod (g.hash + (p : Int) * number) (2 ^ 32)
            index := (g.index + 1) % MAX_PRIME_NUMBERS
            primes := primes2 }
  else .error .assertFailed

/-- `i32::try_from` on a `usize` length (`.try_into().unwrap()`): panics
from `2 ^ 31` up. -/
def i32ofNat (n : Nat) : Option Int :=
  if n < 2 ^ 31 then some (n : Int) else none

/-- The `for byte in blob.into_iter()` loop of `add_blob`. -/
def blobLoop (g : DCHashGenerator) : List Nat → Except HgErr DCHashGenerator
  | [] => .ok g
  | b :: rest =>
    match add_int g (Int.ofNat b) with
    | .error e => .error e
    | .ok g2 => blobLoop g2 rest

/-- `DCHashGenerator::add_blob`: `add_int` of the length, then one `add_int`
per byte, in order. -/
def add_blob (g : DCHashGenerator) (blob : List Nat) :
    Except HgErr DCHashGenerator :=
  match i32ofNat blob.length with
  | none => .error .lenPanic
  | some len =>
    match add_int g len with
    | .error e => .error e
    | .ok g2 => blobLoop g2 blob

/-- `DCHashGenerator::add_string`, over the string's UTF-8 bytes (exactly
what `String::into_bytes` yields): `add_blob` of those bytes. -/
def add_string (g : DCHashGenerator) (s : List Nat) :
    Except HgErr DCHashGenerator :=
  add_blob g s

/-- `DCHashGenerator::get_hash`: `self.hash as u32`, the accumulator's bit
pattern reinterpreted as an unsigned 32-bit value. -/
def get_hash (g : DCHashGenerator) : Nat :=
  (g.hash % (2 ^ 32)).toNat

/-- One public mutating call of the generator. -/
inductive HashOp where
  | int (n : Int)
  | blob (b : List Nat)
  | str (s : List Nat)

def applyOp (g : DCHashGenerator) : HashOp → Except HgErr DCHashGenerator
  | .int n => add_int g n
  | .blob b => add_blob g b
  | .str s => add_string g s

/-- A sequence of public calls, applied in order (stopping at the first
failure, as a Rust panic would). -/
def runOps (g : DCHashGenerator) : List HashOp → Except HgErr DCHashGenerator
  | [] => .ok g
  | op :: rest =>
    match applyOp g op with
    | .error e => .error e
    | .ok g2 => runOps g2 rest

end Hg

namespace Dg

theorem masked_mod_256 (v m : Nat) (h : m &&& 255 = 0) : (v &&& m) % 256 = 0 := by
  have h1 : (v &&& m) % 256 = (v &&& m) &&& 255 := by
    have := Nat.and_pow_two_sub_one_eq_mod (v &&& m) 8
    simpa using this.symm
  rw [h1, Nat.and_assoc, h, Nat.and_zero]

theorem shifted_mod_256 (y k : Nat) (h : 8 ≤ k) : (y <<< k) % 256 = 0 := by
  rw [Nat.shiftLeft_eq]
  obtain ⟨j, rfl⟩ := Nat.exists_eq_add_of_le h
  rw [pow_add]
  have : y * (2 ^ 8 * 2 ^ j) = y * 2 ^ j * 256 := by ring
  rw [this]
  exact Nat.mul_mod_left _ _

theorem mod_mod_256 (y w : Nat) (h : 256 ∣ w) : y % w % 256 = y % 256 :=
  Nat.mod_mod_of_dvd y h

/-- Every byte `add_u16` pushes is zero, whatever the argument. -/
theorem add_u16_bytes (v : Nat) :
    (v &&& 0xff00) % 256 = 0 ∧ ((v &&& 0x00ff) <<< 8) % 65536 % 256 = 0 := by
  refine ⟨masked_mod_256 v 0xff00 (by decide), ?_⟩
  rw [mod_mod_256 _ _ (by norm_num), shifted_mod_256 _ _ (by norm_num)]

/-- Every byte `add_u32` pushes is zero, whatever the argument. -/
theorem add_u32_bytes (v : Nat) :
    (v &&& 0xff000000) % 256 = 0 ∧
    ((v &&& 0x00ff0000) <<< 8) % 4294967296 % 256 = 0 ∧
    ((v &&& 0x0000ff00) <<< 16) % 4294967296 % 256 = 0 ∧
    ((v &&& 0x000000ff) <<< 24) % 4294967296 % 256 = 0 := by
  refine ⟨masked_mod_256 v 0xff000000 (by decide), ?_, ?_, ?_⟩ <;>
    rw [mod_mod_256 _ _ (by norm_num), shifted_mod_256 _ _ (by norm_num)]

/-- Every byte `add_u64` pushes is zero, whatever the argument. -/
theorem add_u64_bytes (v : Nat) :
    (v &&& 0xff00000000000000) % 256 = 0 ∧
    ((v &&& 0x00ff000000000000) <<< 8) % 18446744073709551616 % 256 = 0 ∧
    ((v &&& 0x0000ff0000000000) <<< 16) % 18446744073709551616 % 256 = 0 ∧
    ((v &&& 0x000000ff00000000) <<< 24) % 18446744073709551616 % 256 = 0 ∧
    ((v &&& 0x00000000ff000000) <<< 32) % 18446744073709551616 % 256 = 0 ∧
    ((v &&& 0x0000000000ff0000) <<< 40) % 18446744073709551616 % 256 = 0 ∧
    ((v &&& 0x000000000000ff00) <<< 48) % 18446744073709551616 % 256 = 0 ∧
    ((v &&& 0x00000000000000ff) <<< 56) % 18446744073709551616 % 256 = 0 := by
  refine ⟨masked_mod_256 v 0xff00000000000000 (by decide), ?_, ?_, ?_, ?_, ?_, ?_, ?_⟩ <;>
    rw [mod_mod_256 _ _ (by norm_num), shifted_mod_256 _ _ (by norm_num)]

@[simp] theorem buffer_mk (l : List Nat) : (Datagram.mk l).buffer = l := rfl

theorem check_add_length_err {d : Datagram} {len : Nat}
    (h : d.buffer.length + len > DG_SIZE_MAX) :
    check_add_length d len = .error .overflow := by
  unfold check_add_length; exact if_pos h

theorem check_add_length_ok {d : Datagram} {len : Nat}
    (h : ¬ d.buffer.length + len > DG_SIZE_MAX) :
    check_add_length d len = .ok () := by
  unfold check_add_length; exact if_neg h

theorem add_u8_eq (d : Datagram) (v : Nat) :
    add_u8 d v =
      if d.buffer.length + 1 > DG_SIZE_MAX then (d, .error .overflow)
      else (⟨d.buffer ++ [v]⟩, .ok ()) := by
  unfold add_u8 check_add_length
  by_cases h : d.buffer.length + 1 > DG_SIZE_MAX <;> simp [h]

theorem add_bool_eq (d : Datagram) (v : Bool) :
    add_bool d v =
      if d.buffer.length + 1 > DG_SIZE_MAX then (d, .error .overflow)
      else (⟨d.buffer ++ [if v then 1 else 0]⟩, .ok ()) := by
  unfold add_bool check_add_length
  by_cases h : d.buffer.length + 1 > DG_SIZE_MAX <;>
    cases v <;> simp [h, add_u8_eq]

theorem add_u16_eq (d : Datagram) (v : Nat) :
    add_u16 d v =
      if d.buffer.length + 2 > DG_SIZE_MAX then (d, .error .overflow)
      else (⟨d.buffer ++ [0, 0]⟩, .ok ()) := by
  unfold add_u16 check_add_length swap_le_16
  by_cases h : d.buffer.length + 2 > DG_SIZE_MAX <;>
    simp [h, (add_u16_bytes v).1, (add_u16_bytes v).2]

theorem add_u32_eq (d : Datagram) (v : Nat) :
    add_u32 d v =
      if d.buffer.length + 4 > DG_SIZE_MAX then (d, .error .overflow)
      else (⟨d.buffer ++ [0, 0, 0, 0]⟩, .ok ()) := by
  obtain ⟨h1, h2, h3, h4⟩ := add_u32_bytes v
  unfold add_u32 check_add_length swap_le_32
  by_cases h : d.buffer.length + 4 > DG_SIZE_MAX <;> simp [h, h1, h2, h3, h4]

theorem add_u64_eq (d : Datagram) (v : Nat) :
    add_u64 d v =
      if d.buffer.length + 8 > DG_SIZE_MAX then (d, .error .overflow)
      else (⟨d.buffer ++ [0, 0, 0, 0, 0, 0, 0, 0]⟩, .ok ()) := by
  obtain ⟨h1, h2, h3, h4, h5, h6, h7, h8⟩ := add_u64_bytes v
  unfold add_u64 check_add_length swap_le_64
  by_cases h : d.buffer.length + 8 > DG_SIZE_MAX <;>
    simp [h, h1, h2, h3, h4, h5, h6, h7, h8]

theorem add_i8_eq (d : Datagram) (v : Int) :
    add_i8 d v =
      if d.buffer.length + 1 > DG_SIZE_MAX then (d, .error .overflow)
      else (⟨d.buffer ++ [(v % 256).toNat]⟩, .ok ()) := add_u8_eq d _

theorem add_i16_eq (d : Datagram) (v : Int) :
    add_i16 d v =
      if d.buffer.length + 2 > DG_SIZE_MAX then (d, .error .overflow)
      else (⟨d.buffer ++ [0, 0]⟩, .ok ()) := add_u16_eq d _

theorem add_i32_eq (d : Datagram) (v : Int) :
    add_i32 d v =
      if d.buffer.length + 4 > DG_SIZE_MAX then (d, .error .overflow)
      else (⟨d.buffer ++ [0, 0, 0, 0]⟩, .ok ()) := add_u32_eq d _

theorem add_i64_eq (d : Datagram) (v : Int) :
    add_i64 d v =
      if d.buffer.length + 8 > DG_SIZE_MAX then (d, .error .overflow)
      else (⟨d.buffer ++ [0, 0, 0, 0, 0, 0, 0, 0]⟩, .ok ()) := add_u64_eq d _

theorem add_f32_eq (d : Datagram) (v : Nat) :
    add_f32 d v =
      if d.buffer.length + 4 > DG_SIZE_MAX then (d, .error .overflow)
      else (⟨d.buffer ++ [0, 0, 0, 0]⟩, .ok ()) := add_u32_eq d v

theorem add_f64_eq (d : Datagram) (v : Nat) :
    add_f64 d v =
      if d.buffer.length + 8 > DG_SIZE_MAX then (d, .error .overflow)
      else (⟨d.buffer ++ [0, 0, 0, 0, 0, 0, 0, 0]⟩, .ok ()) := add_u64_eq d v

theorem add_size_eq (d : Datagram) (v : Nat) :
    add_size d v =
      if d.buffer.length + 2 > DG_SIZE_MAX then (d, .error .overflow)
      else (⟨d.buffer ++ [0, 0]⟩, .ok ()) := add_u16_eq d v

theorem add_channel_eq (d : Datagram) (v : Nat) :
    add_channel d v =
      if d.buffer.length + 8 > DG_SIZE_MAX then (d, .error .overflow)
      else (⟨d.buffer ++ [0, 0, 0, 0, 0, 0, 0, 0]⟩, .ok ()) := add_u64_eq d v

theorem add_doid_eq (d : Datagram) (v : Nat) :
    add_doid d v =
      if d.buffer.length + 4 > DG_SIZE_MAX then (d, .error .overflow)
      else (⟨d.buffer ++ [0, 0, 0, 0]⟩, .ok ()) := add_u32_eq d v

theorem add_zone_eq (d : Datagram) (v : Nat) :
    add_zone d v =
      if d.buffer.length + 4 > DG_SIZE_MAX then (d, .error .overflow)
      else (⟨d.buffer ++ [0, 0, 0, 0]⟩, .ok ()) := add_u32_eq d v

/-- `add_location` is not atomic: when the parent id fits but the zone id
does not, the overflow error is returned with the four parent bytes already
in the buffer. -/
theorem add_location_eq (d : Datagram) (parent zone : Nat) :
    add_location d parent zone =
      if d.buffer.length + 4 > DG_SIZE_MAX then (d, .error .overflow)
      else if d.buffer.length + 8 > DG_SIZE_MAX then
        (⟨d.buffer ++ [0, 0, 0, 0]⟩, .error .overflow)
      else (⟨d.buffer ++ [0, 0, 0, 0, 0, 0, 0, 0]⟩, .ok ()) := by
  unfold add_location
  rw [add_u32_eq]
  by_cases h1 : d.buffer.length + 4 > DG_SIZE_MAX
  · simp [h1]
  · rw [if_neg h1, if_neg h1]
    dsimp only
    rw [add_u32_eq]
    by_cases h2 : d.buffer.length + 8 > DG_SIZE_MAX
    · rw [if_pos (by simp; omega), if_pos h2]
    · rw [if_neg (by simp; omega), if_neg h2]
      simp

theorem add_data_eq (d : Datagram) (v : List Nat) :
    add_data d v =
      if v.length > DG_SIZE_MAX then (d, .error .overflow)
      else if d.buffer.length + v.length > DG_SIZE_MAX then (d, .error .overflow)
      else (⟨d.buffer ++ v⟩, .ok ()) := by
  unfold add_data check_add_length
  by_cases h1 : v.length > DG_SIZE_MAX <;>
    by_cases h2 : d.buffer.length + v.length > DG_SIZE_MAX <;> simp [h1, h2]

theorem add_datagram_eq (d dg : Datagram) :
    add_datagram d dg =
      if dg.buffer.length > DG_SIZE_MAX then (d, .error .overflow)
      else if d.buffer.length + dg.buffer.length > DG_SIZE_MAX then (d, .error .overflow)
      else (⟨d.buffer ++ dg.buffer⟩, .ok ()) := by
  unfold add_datagram check_add_length
  by_cases h1 : dg.buffer.length > DG_SIZE_MAX <;>
    by_cases h2 : d.buffer.length + dg.buffer.length > DG_SIZE_MAX <;> simp [h1, h2]

/-- `add_string` is not atomic (the length tag may be written before the
capacity check fails) and, in the success case, never appends the string
bytes: the buffer grows by exactly the two (zeroed) tag bytes. -/
theorem add_string_eq (d : Datagram) (v : List Nat) :
    add_string d v =
      if v.length > DG_SIZE_MAX then (d, .error .overflow)
      else if d.buffer.length + 2 > DG_SIZE_MAX then (d, .error .overflow)
      else if d.buffer.length + 2 + v.length > DG_SIZE_MAX then
        (⟨d.buffer ++ [0, 0]⟩, .error .overflow)
      else (⟨d.buffer ++ [0, 0]⟩, .ok ()) := by
  unfold add_string
  by_cases h1 : v.length > DG_SIZE_MAX
  · simp [h1]
  · rw [if_neg h1, if_neg h1, add_u16_eq]
    by_cases h2 : d.buffer.length + 2 > DG_SIZE_MAX
    · simp [h1, h2]
    · rw [if_neg h2, if_neg h2]
      dsimp only
      by_cases h3 : d.buffer.length + 2 + v.length > DG_SIZE_MAX
      · rw [check_add_length_err (by simp; omega), if_pos h3]
      · rw [check_add_length_ok (by simp; omega), if_neg h3]

/-- `add_blob` panics (no `DgError`) on inputs longer than 65535 bytes and is
not atomic: the two tag bytes may be written before the capacity check
fails. -/
theorem add_blob_eq (d : Datagram) (v : List Nat) :
    add_blob d v =
      if v.length > DG_SIZE_MAX then (d, .error .panicked)
      else if d.buffer.length + 2 > DG_SIZE_MAX then (d, .error .overflow)
      else if d.buffer.length + 2 + v.length > DG_SIZE_MAX then
        (⟨d.buffer ++ [0, 0]⟩, .error .overflow)
      else (⟨d.buffer ++ [0, 0] ++ v⟩, .ok ()) := by
  unfold add_blob
  by_cases h1 : v.length > DG_SIZE_MAX
  · simp [h1]
  · rw [if_neg h1, if_neg h1, add_size_eq]
    by_cases h2 : d.buffer.length + 2 > DG_SIZE_MAX
    · simp [h1, h2]
    · rw [if_neg h2, if_neg h2]
      dsimp only
      by_cases h3 : d.buffer.length + 2 + v.length > DG_SIZE_MAX
      · rw [check_add_length_err (by simp; omega), if_pos h3]
      · rw [check_add_length_ok (by simp; omega), if_neg h3]

end Dg

/-- Claim C1, counterexample.  With 65533 bytes already buffered,
`add_blob` of a one-byte blob makes the new total 65536 > 65535, and the
call does fail with `DatagramOverflow` — but the buffer is *not* as before
the call: the two length-tag bytes written by `add_size` remain, so the
append is not atomic, refuting the claim as stated. -/
theorem claim_C1_counterexample :
    (Dg.add_blob ⟨List.replicate 65533 0⟩ [7]).2 = .error .overflow ∧
    (Dg.add_blob ⟨List.replicate 65533 0⟩ [7]).1.buffer ≠ List.replicate 65533 0 := by
  have hlen : (Dg.Datagram.mk (List.replicate 65533 0)).buffer.length = 65533 := by
    show (List.replicate 65533 0).length = _
    exact List.length_replicate 65533 0
  constructor
  · rw [Dg.add_blob_eq, hlen]
    norm_num [Dg.DG_SIZE_MAX]
  · rw [Dg.add_blob_eq, hlen]
    norm_num [Dg.DG_SIZE_MAX]
    intro h
    simp at h

/-- Claim C1, amended.  Exact overflow behaviour of every append operation:
each one fails with `DatagramOverflow` whenever the new total would exceed
65535 bytes, and the single-write appends (`add_bool`, the integer and float
widths, `add_size`, `add_channel`, `add_doid`, `add_zone`, `add_data`,
`add_datagram`) then leave the buffer exactly as before.  However the append
is *not* atomic for the three composite operations: `add_location` can fail
with the four parent-id bytes already written, and `add_string` / `add_blob`
can fail with the two length-tag bytes already written; `add_blob` of an
input longer than 65535 bytes panics (`try_into().unwrap()`) instead of
returning `DatagramOverflow`. -/
theorem claim_C1_amended :
    (∀ d v, Dg.add_bool d v =
      if d.buffer.length + 1 > Dg.DG_SIZE_MAX then (d, .error .overflow)
      else (⟨d.buffer ++ [if v then 1 else 0]⟩, .ok ())) ∧
    (∀ d v, Dg.add_u8 d v =
      if d.buffer.length + 1 > Dg.DG_SIZE_MAX then (d, .error .overflow)
      else (⟨d.buffer ++ [v]⟩, .ok ())) ∧
    (∀ d v, Dg.add_u16 d v =
      if d.buffer.length + 2 > Dg.DG_SIZE_MAX then (d, .error .overflow)
      else (⟨d.buffer ++ [0, 0]⟩, .ok ())) ∧
    (∀ d v, Dg.add_u32 d v =
      if d.buffer.length + 4 > Dg.DG_SIZE_MAX then (d, .error .overflow)
      else (⟨d.buffer ++ [0, 0, 0, 0]⟩, .ok ())) ∧
    (∀ d v, Dg.add_u64 d v =
      if d.buffer.length + 8 > Dg.DG_SIZE_MAX then (d, .error .overflow)
      else (⟨d.buffer ++ [0, 0, 0, 0, 0, 0, 0, 0]⟩, .ok ())) ∧
    (∀ d v, Dg.add_i8 d v =
      if d.buffer.length + 1 > Dg.DG_SIZE_MAX then (d, .error .overflow)
      else (⟨d.buffer ++ [(v % 256).toNat]⟩, .ok ())) ∧
    (∀ d v, Dg.add_i16 d v =
      if d.buffer.length + 2 > Dg.DG_SIZE_MAX then (d, .error .overflow)
      else (⟨d.buffer ++ [0, 0]⟩, .ok ())) ∧
    (∀ d v, Dg.add_i32 d v =
      if d.buffer.length + 4 > Dg.DG_SIZE_MAX then (d, .error .overflow)
      else (⟨d.buffer ++ [0, 0, 0, 0]⟩, .ok ())) ∧
    (∀ d v, Dg.add_i64 d v =
      if d.buffer.length + 8 > Dg.DG_SIZE_MAX then (d, .error .overflow)
      else (⟨d.buffer ++ [0, 0, 0, 0, 0, 0, 0, 0]⟩, .ok ())) ∧
    (∀ d v, Dg.add_f32 d v =
      if d.buffer.length + 4 > Dg.DG_SIZE_MAX then (d, .error .overflow)
      else (⟨d.buffer ++ [0, 0, 0, 0]⟩, .ok ())) ∧
    (∀ d v, Dg.add_f64 d v =
      if d.buffer.length + 8 > Dg.DG_SIZE_MAX then (d, .error .overflow)
      else (⟨d.buffer ++ [0, 0, 0, 0, 0, 0, 0, 0]⟩, .ok ())) ∧
    (∀ d v, Dg.add_size d v =
      if d.buffer.length + 2 > Dg.DG_SIZE_MAX then (d, .error .overflow)
      else (⟨d.buffer ++ [0, 0]⟩, .ok ())) ∧
    (∀ d v, Dg.add_channel d v =
      if d.buffer.length + 8 > Dg.DG_SIZE_MAX then (d, .error .overflow)
      else (⟨d.buffer ++ [0, 0, 0, 0, 0, 0, 0, 0]⟩, .ok ())) ∧
    (∀ d v, Dg.add_doid d v =
      if d.buffer.length + 4 > Dg.DG_SIZE_MAX then (d, .error .overflow)
      else (⟨d.buffer ++ [0, 0, 0, 0]⟩, .ok ())) ∧
    (∀ d v, Dg.add_zone d v =
      if d.buffer.length + 4 > Dg.DG_SIZE_MAX then (d, .error .overflow)
      else (⟨d.buffer ++ [0, 0, 0, 0]⟩, .ok ())) ∧
    (∀ d v, Dg.add_data d v =
      if v.length > Dg.DG_SIZE_MAX then (d, .error .overflow)
      else if d.buffer.length + v.length > Dg.DG_SIZE_MAX then (d, .error .overflow)
      else (⟨d.buffer ++ v⟩, .ok ())) ∧
    (∀ d dg, Dg.add_datagram d dg =
      if dg.buffer.length > Dg.DG_SIZE_MAX then (d, .error .overflow)
      else if d.buffer.length + dg.buffer.length > Dg.DG_SIZE_MAX then (d, .error .overflow)
      else (⟨d.buffer ++ dg.buffer⟩, .ok ())) ∧
    (∀ d parent zone, Dg.add_location d parent zone =
      if d.buffer.length + 4 > Dg.DG_SIZE_MAX then (d, .error .overflow)
      else if d.buffer.length + 8 > Dg.DG_SIZE_MAX then
        (⟨d.buffer ++ [0, 0, 0, 0]⟩, .error .overflow)
      else (⟨d.buffer ++ [0, 0, 0, 0, 0, 0, 0, 0]⟩, .ok ())) ∧
    (∀ d v, Dg.add_string d v =
      if v.length > Dg.DG_SIZE_MAX then (d, .error .overflow)
      else if d.buffer.length + 2 > Dg.DG_SIZE_MAX then (d, .error .overflow)
      else if d.buffer.length + 2 + v.length > Dg.DG_SIZE_MAX then
        (⟨d.buffer ++ [0, 0]⟩, .error .overflow)
      else (⟨d.buffer ++ [0, 0]⟩, .ok ())) ∧
    (∀ d v, Dg.add_blob d v =
      if v.length > Dg.DG_SIZE_MAX then (d, .error .panicked)
      else if d.buffer.length + 2 > Dg.DG_SIZE_MAX then (d, .error .overflow)
      else if d.buffer.length + 2 + v.length > Dg.DG_SIZE_MAX then
        (⟨d.buffer ++ [0, 0]⟩, .error .overflow)
      else (⟨d.buffer ++ [0, 0] ++ v⟩, .ok ())) :=
  ⟨Dg.add_bool_eq, Dg.add_u8_eq, Dg.add_u16_eq, Dg.add_u32_eq, Dg.add_u64_eq,
   Dg.add_i8_eq, Dg.add_i16_eq, Dg.add_i32_eq, Dg.add_i64_eq,
   Dg.add_f32_eq, Dg.add_f64_eq, Dg.add_size_eq, Dg.add_channel_eq,
   Dg.add_doid_eq, Dg.add_zone_eq, Dg.add_data_eq, Dg.add_datagram_eq,
   Dg.add_location_eq, Dg.add_string_eq, Dg.add_blob_eq⟩

namespace Parser

theorem importLoop_eq (m c : String) (cs : List String) :
    ∀ (ms : List String) (i : Nat) (f : DCFile), i + ms.length ≤ cs.length →
      importLoop f m (c :: cs.map (fun s => c ++ s)) ms i =
        (⟨f.imports ++ ((ms.zip (cs.drop i)).map
            (fun p => ⟨m ++ p.1, [c ++ p.2]⟩))⟩, false)
  | [], i, f, _ => by simp [importLoop]
  | suffix :: rest, i, f, h => by
    have hi : i < cs.length := by
      have := h; simp only [List.length_cons] at this; omega
    have hget : (c :: cs.map (fun s => c ++ s)).get? (i + 1) =
        some (c ++ cs[i]) := by
      simp [List.get?_eq_getElem?, List.getElem?_eq_getElem hi,
        List.getElem?_map, hi]
    have hdrop : cs.drop i = cs[i] :: cs.drop (i + 1) :=
      List.drop_eq_getElem_cons hi
    rw [importLoop]
    simp only [hget]
    rw [importLoop_eq m c cs rest (i + 1)
      (add_python_import f ⟨m ++ suffix, [c ++ cs[i]]⟩)
      (by simp only [List.length_cons] at h; omega)]
    rw [hdrop]
    simp only [add_python_import, List.zip_cons_cons, List.map_cons,
      List.append_assoc, List.singleton_append]

/-- Source-side `python_import` agrees with the spec-side expansion whenever
there are at least as many class suffixes as module suffixes. -/
theorem python_import_eq (f : DCFile) (m c : String) (ms cs : List String)
    (h : ms.length ≤ cs.length) :
    python_import f m ms c cs = (⟨f.imports ++ pythonImportSpec m c ms cs⟩, false) := by
  unfold python_import pythonImportSpec
  by_cases hms : ms.isEmpty
  · simp [hms, add_python_import]
  · rw [if_neg hms, if_neg hms]
    rw [importLoop_eq m c cs ms 0 _ (by omega)]
    simp [add_python_import]

/-- With more module suffixes than class suffixes, the loop reaches the
out-of-range `class_symbols.get(i + 1).unwrap()` and panics. -/
theorem importLoop_panics (m c : String) (cs : List String) :
    ∀ (ms : List String) (i : Nat) (f : DCFile), i ≤ cs.length →
      cs.length < i + ms.length →
      (importLoop f m (c :: cs.map (fun s => c ++ s)) ms i).2 = true
  | [], i, f, hle, hlt => by simp only [List.length_nil] at hlt; omega
  | suffix :: rest, i, f, hle, hlt => by
    by_cases hi : i < cs.length
    · have hget : (c :: cs.map (fun s => c ++ s)).get? (i + 1) =
          some (c ++ cs[i]) := by
        simp [List.get?_eq_getElem?, List.getElem?_eq_getElem hi,
          List.getElem?_map, hi]
      rw [importLoop]
      simp only [hget]
      exact importLoop_panics m c cs rest (i + 1) _ (by omega)
        (by simp only [List.length_cons] at hlt ⊢; omega)
    · have hieq : i = cs.length := by omega
      have hget : (c :: cs.map (fun s => c ++ s)).get? (i + 1) = none := by
        simp [List.get?_eq_getElem?, List.getElem?_eq_none, hieq]
      rw [importLoop]
      simp only [hget]

theorem python_import_panics (f : DCFile) (m c : String) (ms cs : List String)
    (h : cs.length < ms.length) :
    (python_import f m ms c cs).2 = true := by
  unfold python_import
  have hms : ¬ ms.isEmpty := by
    cases ms with
    | nil => simp at h
    | cons a l => simp
  rw [if_neg hms]
  exact importLoop_panics m c cs ms 0 _ (by omega) (by omega)

/-- Every `importLoop` run only appends to the file's import list. -/
theorem importLoop_appends (m : String) (syms : List String) :
    ∀ (ms : List String) (i : Nat) (f : DCFile), ∃ recs,
      (importLoop f m syms ms i).1.imports = f.imports ++ recs
  | [], i, f => ⟨[], by simp [importLoop]⟩
  | suffix :: rest, i, f => by
    rw [importLoop]
    cases hg : syms.get? (i + 1) with
    | none => exact ⟨[], by simp [hg]⟩
    | some c_symbol =>
      obtain ⟨recs, hrecs⟩ :=
        importLoop_appends m syms rest (i + 1)
          (add_python_import f ⟨m ++ suffix, [c_symbol]⟩)
      refine ⟨⟨m ++ suffix, [c_symbol]⟩ :: recs, ?_⟩
      simp only [hg]
      rw [hrecs]
      simp [add_python_import]

theorem python_import_appends (f : DCFile) (m c : String) (ms cs : List String) :
    ∃ recs, (python_import f m ms c cs).1.imports = f.imports ++ recs := by
  unfold python_import
  by_cases hms : ms.isEmpty
  · refine ⟨[⟨m, c :: cs.map (fun s => c ++ s)⟩], ?_⟩
    rw [if_pos hms]
    simp [add_python_import]
  · rw [if_neg hms]
    obtain ⟨recs, hrecs⟩ :=
      importLoop_appends m (c :: cs.map (fun s => c ++ s)) ms 0
        (add_python_import f ⟨m, [c]⟩)
    refine ⟨⟨m, [c]⟩ :: recs, ?_⟩
    rw [hrecs]
    simp [add_python_import]

/-- Whatever declarations `parse` consumes and wherever it stops, the
`DC_FILE` static only accumulates import records; nothing ever discards
them. -/
theorem runParse_appends : ∀ (decls : List TypeDecl) (f : DCFile),
    ∃ rest, ((runParse f decls).2).imports = f.imports ++ rest
  | [], f => ⟨[], by simp [runParse]⟩
  | .badToken :: _, f => ⟨[], by simp [runParse]⟩
  | .pyImport m ms c cs :: rest, f => by
    obtain ⟨recs, hrecs⟩ := python_import_appends f m c ms cs
    rw [runParse]
    cases hpi : python_import f m ms c cs with
    | mk f2 b =>
      rw [hpi] at hrecs
      cases b with
      | true => exact ⟨recs, hrecs⟩
      | false =>
        obtain ⟨rest2, h2⟩ := runParse_appends rest f2
        exact ⟨recs ++ rest2, by
          dsimp only
          rw [h2, hrecs, List.append_assoc]⟩

end Parser

/-- Claim C3 (confirmed).  Python-import expansion: with no module suffixes,
`python_import` pushes exactly one record binding module `m` to the class
symbols `[c, c+s1, …, c+sk]`; with `N ≤ k` module suffixes it pushes the
record `(m, [c])` followed, for `i = 1..N`, by `(m + suffix_i,
[class_symbols[i]])` — the i-th module suffix paired positionally with the
(i+1)-th class symbol — and the action completes without panicking.  Stated
against the spec-side `pythonImportSpec`, for any starting `DC_FILE` value. -/
theorem claim_C3_import_expansion (f : Parser.DCFile) (m c : String)
    (ms cs : List String) (h : ms.length ≤ cs.length) :
    Parser.python_import f m ms c cs =
      (⟨f.imports ++ Parser.pythonImportSpec m c ms cs⟩, false) :=
  Parser.python_import_eq f m c ms cs h

/-- Claim C3, witness: the spec's two examples.  `from views import
DistributedDonut/AI/OV` gives one record with all three symbols;
`from game.views.Donut/AI import DistributedDonut/AI` gives two records. -/
theorem claim_C3_witness :
    Parser.python_import Parser.DCFile.new "views" [] "DistributedDonut"
        ["AI", "OV"] =
      (⟨[⟨"views", ["DistributedDonut", "DistributedDonutAI",
                    "DistributedDonutOV"]⟩]⟩, false) ∧
    Parser.python_import Parser.DCFile.new
        (Parser.joinModules ["game", "views", "Donut"]) ["AI"]
        "DistributedDonut" ["AI"] =
      (⟨[⟨"game.views.Donut", ["DistributedDonut"]⟩,
         ⟨"game.views.DonutAI", ["DistributedDonutAI"]⟩]⟩, false) :=
  ⟨(claim_C3_import_expansion _ _ _ _ _ (by decide)).trans (by decide),
   (claim_C3_import_expansion _ _ _ _ _ (by decide)).trans (by decide)⟩

/-- Claim C6, counterexample.  For `from views/AI/OV import DistributedDonut`
(two module suffixes, no class suffixes) the parser does *not* surface an
explicit error: after pushing the first record the expansion loop reads
`class_symbols.get(0 + 1)` on the one-element symbol list and the
`.unwrap()` panics — an out-of-range access, refuting the claim. -/
theorem claim_C6_counterexample :
    Parser.python_import Parser.DCFile.new "views" ["AI", "OV"]
        "DistributedDonut" [] =
      (⟨[⟨"views", ["DistributedDonut"]⟩]⟩, true) := by
  decide

/-- Claim C6, amended.  On a suffix-count mismatch `python_import` does not
surface an explicit error: with more module suffixes than class suffixes the
out-of-range `class_symbols.get(i + 1).unwrap()` panics (result flag `true`),
and with fewer (but at least one) module suffixes it silently truncates,
pushing only `ms.length + 1` records and dropping the surplus class
symbols. -/
theorem claim_C6_amended (f : Parser.DCFile) (m c : String)
    (ms cs : List String) :
    (cs.length < ms.length → (Parser.python_import f m ms c cs).2 = true) ∧
    (ms.length ≤ cs.length →
      Parser.python_import f m ms c cs =
        (⟨f.imports ++ Parser.pythonImportSpec m c ms cs⟩, false) ∧
      (¬ ms.isEmpty →
        Parser.get_num_imports (Parser.python_import f m ms c cs).1 =
          Parser.get_num_imports f + ms.length + 1)) := by
  refine ⟨fun h => Parser.python_import_panics f m c ms cs h, fun h => ?_⟩
  have heq := Parser.python_import_eq f m c ms cs h
  refine ⟨heq, fun hms => ?_⟩
  rw [heq]
  unfold Parser.get_num_imports Parser.pythonImportSpec
  rw [if_neg hms]
  simp only [List.length_append, List.length_cons, List.length_map,
    List.length_zip]
  omega

/-- Claim C6, witness for the amended statement: the panic case (two module
suffixes, none on the class) and the truncation case (one module suffix, two
class suffixes: only two records, `DistributedDonutOV` dropped). -/
theorem claim_C6_witness :
    ((Parser.python_import Parser.DCFile.new "views" ["AI", "OV"]
        "DistributedDonut" []).2 = true) ∧
    (Parser.python_import Parser.DCFile.new "views" ["AI"]
        "DistributedDonut" ["AI", "OV"] =
      (⟨Parser.DCFile.new.imports ++
          Parser.pythonImportSpec "views" "DistributedDonut" ["AI"]
            ["AI", "OV"]⟩, false)) ∧
    (Parser.get_num_imports (Parser.python_import Parser.DCFile.new "views"
        ["AI"] "DistributedDonut" ["AI", "OV"]).1 = 2) :=
  ⟨(claim_C6_amended Parser.DCFile.new "views" "DistributedDonut"
      ["AI", "OV"] []).1 (by decide),
   ((claim_C6_amended Parser.DCFile.new "views" "DistributedDonut"
      ["AI"] ["AI", "OV"]).2 (by decide)).1,
   by
    have := ((claim_C6_amended Parser.DCFile.new "views" "DistributedDonut"
      ["AI"] ["AI", "OV"]).2 (by decide)).2 (by decide)
    simpa using this⟩

/-- Claim C7, counterexample.  A parse that reduces one python import and
then hits a bad token fails — but the record pushed into the `DC_FILE`
static stays observable (`get_num_imports = 1`, not 0), and a subsequent
parse on the same static starts from that model, ending with two records
instead of one: the partial schema is not discarded. -/
theorem claim_C7_counterexample :
    (Parser.runParse Parser.DCFile.new
      [.pyImport "views" [] "DistributedDonut" ["AI", "OV"],
       .badToken]).1 = .error .unexpectedToken ∧
    Parser.get_num_imports (Parser.runParse Parser.DCFile.new
      [.pyImport "views" [] "DistributedDonut" ["AI", "OV"],
       .badToken]).2 = 1 ∧
    Parser.get_num_imports (Parser.runParse
      (Parser.runParse Parser.DCFile.new
        [.pyImport "views" [] "DistributedDonut" ["AI", "OV"],
         .badToken]).2
      [.pyImport "views" [] "DistributedDonut" ["AI", "OV"]]).2 = 2 := by
  decide

namespace Hg

theorem primeB_eq_true {q : Nat} : primeB q = true ↔ q.Prime := by
  unfold primeB
  exact ⟨fun h => @of_decide_eq_true _ (Nat.decidablePrime1 q) h,
         fun h => @decide_eq_true _ (Nat.decidablePrime1 q) h⟩

theorem mem_primesBelowList {q c : Nat} :
    q ∈ primesBelowList c ↔ q.Prime ∧ q < c := by
  unfold primesBelowList
  rw [List.mem_filter, List.mem_range, primeB_eq_true, and_comm]

theorem primesBelowList_pairwise (c : Nat) :
    List.Pairwise (· < ·) (primesBelowList c) :=
  (List.pairwise_lt_range c).filter _

theorem length_primesBelowList (c : Nat) :
    (primesBelowList c).length = Nat.count Nat.Prime c := by
  unfold primesBelowList Nat.count
  rw [List.countP_eq_length_filter]
  congr 1
  exact List.filter_congr fun a _ => decide_eq_decide.mpr Iff.rfl

theorem primesBelowList_succ (c : Nat) :
    primesBelowList (c + 1) =
      primesBelowList c ++ if primeB c then [c] else [] := by
  unfold primesBelowList
  rw [List.range_succ, List.filter_append]
  congr 1
  by_cases h : primeB c <;> simp [h]

theorem primesBelowList_three : primesBelowList 3 = [2] := by decide

theorem two_mem_primesBelowList {c : Nat} (h : 3 ≤ c) :
    2 ∈ primesBelowList c :=
  mem_primesBelowList.mpr ⟨Nat.prime_two, by omega⟩

theorem primesBelowList_ne_nil {c : Nat} (h : 3 ≤ c) :
    primesBelowList c ≠ [] :=
  fun hnil => by simpa [hnil] using two_mem_primesBelowList h

/-- The source's divisibility test `q * (candidate / q) == candidate` is
exact divisibility (for the positive `q` the cache holds). -/
theorem rustDiv_iff {q c : Nat} (_hq : 0 < q) : q * (c / q) = c ↔ q ∣ c :=
  ⟨fun h => ⟨c / q, h.symm⟩, fun h => Nat.mul_div_cancel' h⟩

/-- For every `c ≥ 3` there is a prime `w < c` with `w * w > c`; it is the
element at which the trial-division loop stops scanning (so the loop never
walks off the cache).  Bertrand's postulate applied at `Nat.sqrt c`. -/
theorem exists_pivot {c : Nat} (h : 3 ≤ c) :
    ∃ w, w.Prime ∧ w < c ∧ c < w * w := by
  by_cases hc : c < 9
  · interval_cases c
    · exact ⟨2, Nat.prime_two, by omega, by omega⟩
    · exact ⟨3, Nat.prime_three, by omega, by omega⟩
    · exact ⟨3, Nat.prime_three, by omega, by omega⟩
    · exact ⟨3, Nat.prime_three, by omega, by omega⟩
    · exact ⟨3, Nat.prime_three, by omega, by omega⟩
    · exact ⟨3, Nat.prime_three, by omega, by omega⟩
  · push_neg at hc
    have hs3 : 3 ≤ Nat.sqrt c := Nat.le_sqrt.mpr (by omega)
    obtain ⟨p, hp, hlt, hle⟩ :=
      Nat.exists_prime_lt_and_le_two_mul (Nat.sqrt c) (by omega)
    refine ⟨p, hp, ?_, ?_⟩
    · have h1 : Nat.sqrt c * Nat.sqrt c ≤ c := Nat.sqrt_le c
      have : 2 * Nat.sqrt c < Nat.sqrt c * Nat.sqrt c := by nlinarith
      omega
    · have h2 : c < (Nat.sqrt c + 1) * (Nat.sqrt c + 1) := Nat.lt_succ_sqrt c
      have : (Nat.sqrt c + 1) * (Nat.sqrt c + 1) ≤ p * p := by nlinarith
      omega

/-- Below the `u16` horizon `251 * 251 = 63001` the stopping pivot can be
taken `≤ 251` (the least prime whose square exceeds `c` is at most the
least prime above `Nat.sqrt c`), so every trial square the loop evaluates
fits in a `u16`. -/
theorem exists_pivot_small {c : Nat} (h3 : 3 ≤ c) (hsm : c < 63001) :
    ∃ w, w.Prime ∧ w < c ∧ c < w * w ∧ w ≤ 251 := by
  obtain ⟨w, hwp, hwlt, hwsq⟩ := exists_pivot h3
  have hex : ∃ v, v.Prime ∧ c < v * v := ⟨w, hwp, hwsq⟩
  obtain ⟨hfp, hfsq⟩ := Nat.find_spec hex
  refine ⟨Nat.find hex, hfp, ?_, hfsq, ?_⟩
  · have := Nat.find_min' hex ⟨hwp, hwsq⟩
    omega
  · by_contra hgt
    push_neg at hgt
    have h251 : ¬ ((251 : Nat).Prime ∧ c < 251 * 251) :=
      Nat.find_min hex (by omega)
    push_neg at h251
    have := h251 (by norm_num)
    omega

theorem prime_63029 : Nat.Prime 63029 := by norm_num

theorem not_prime_65535 : ¬ (65535 : Nat).Prime := by norm_num

/-- `63029` is the first prime at or above the horizon `63001`. -/
theorem no_prime_in_gap : ∀ x : Nat, 63001 ≤ x → x < 63029 → ¬ x.Prime := by
  intro x h1 h2
  interval_cases x <;> norm_num

/-- There are at most `n` primes below `n`. -/
theorem count_prime_le_self (n : Nat) : Nat.count Nat.Prime n ≤ n := by
  rw [← length_primesBelowList]
  calc (primesBelowList n).length ≤ (List.range n).length :=
        List.length_filter_le _ _
    _ = n := List.length_range n

/-- Splitting a list at the first element failing `p`. -/
theorem split_at_first_fail {α : Type} (p : α → Bool) :
    ∀ l : List α, (∃ x ∈ l, ¬ p x) →
      ∃ l₁ q l₂, l = l₁ ++ q :: l₂ ∧ (∀ x ∈ l₁, p x) ∧ ¬ p q
  | [], h => by simp at h
  | a :: l, h => by
    by_cases hpa : p a
    · have hl : ∃ x ∈ l, ¬ p x := by
        obtain ⟨x, hx, hnx⟩ := h
        rcases List.mem_cons.mp hx with rfl | hx2
        · exact absurd hpa hnx
        · exact ⟨x, hx2, hnx⟩
      obtain ⟨l₁, q, l₂, heq, hall, hq⟩ := split_at_first_fail p l hl
      refine ⟨a :: l₁, q, l₂, by rw [heq]; rfl, ?_, hq⟩
      intro x hx
      rcases List.mem_cons.mp hx with rfl | hx2
      · exact hpa
      · exact hall x hx2
    · exact ⟨[], a, l, rfl, by simp, hpa⟩

/-- Helper: while every scanned prime has square ≤ `c` and fails the
division test, reaching an element with square above `c` (but still
representable) exits the loop with `maybe_prime` still true. -/
theorem trialDiv_true_of (c : Nat) (hc : c < 65536) :
    ∀ (l₁ : List Nat) (q : Nat) (l₂ : List Nat),
      (∀ x ∈ l₁, x * x ≤ c ∧ x * (c / x) ≠ c) → q * q < 65536 → c < q * q →
      trialDiv c (l₁ ++ q :: l₂) = some true
  | [], q, l₂, _, hq65, hq => by
    rw [List.nil_append, trialDiv]
    rw [if_pos hq65, if_neg (by omega)]
  | x :: l₁, q, l₂, hall, hq65, hq => by
    obtain ⟨hx1, hx2⟩ := hall x (by simp)
    rw [List.cons_append, trialDiv]
    rw [if_pos (show x * x < 65536 by omega), if_pos hx1, if_neg hx2]
    exact trialDiv_true_of c hc l₁ q l₂ (fun y hy => hall y (by simp [hy]))
      hq65 hq

/-- Helper: reaching a divisor with square ≤ `c` that is not the last cached
element makes the loop exit with `maybe_prime = false`. -/
theorem trialDiv_false_of (c : Nat) (hc : c < 65536) :
    ∀ (l₁ : List Nat) (q : Nat) (l₂ : List Nat),
      (∀ x ∈ l₁, x * x ≤ c ∧ x * (c / x) ≠ c) →
      q * q ≤ c → q * (c / q) = c → l₂ ≠ [] →
      trialDiv c (l₁ ++ q :: l₂) = some false
  | [], q, l₂, _, hq1, hq2, hl₂ => by
    rw [List.nil_append, trialDiv]
    rw [if_pos (show q * q < 65536 by omega), if_pos hq1, if_pos hq2,
      if_neg (by simpa using hl₂)]
  | x :: l₁, q, l₂, hall, hq1, hq2, hl₂ => by
    obtain ⟨hx1, hx2⟩ := hall x (by simp)
    rw [List.cons_append, trialDiv]
    rw [if_pos (show x * x < 65536 by omega), if_pos hx1, if_neg hx2]
    exact trialDiv_false_of c hc l₁ q l₂ (fun y hy => hall y (by simp [hy]))
      hq1 hq2 hl₂

/-- Helper: reaching an element whose square does not fit in a `u16` makes
the inner loop panic (checked multiplication overflow). -/
theorem trialDiv_none_of (c : Nat) (hc : c < 65536) :
    ∀ (l₁ : List Nat) (q : Nat) (l₂ : List Nat),
      (∀ x ∈ l₁, x * x ≤ c ∧ x * (c / x) ≠ c) → 65536 ≤ q * q →
      trialDiv c (l₁ ++ q :: l₂) = none
  | [], q, l₂, _, hq => by
    rw [List.nil_append, trialDiv]
    rw [if_neg (by omega)]
  | x :: l₁, q, l₂, hall, hq => by
    obtain ⟨hx1, hx2⟩ := hall x (by simp)
    rw [List.cons_append, trialDiv]
    rw [if_pos (show x * x < 65536 by omega), if_pos hx1, if_neg hx2]
    exact trialDiv_none_of c hc l₁ q l₂ (fun y hy => hall y (by simp [hy])) hq

/-- On a cache holding exactly the primes below a prime `c` under the
horizon `63001 = 251 ^ 2`, trial division reports `maybe_prime = true` (and
does not panic: the stopping pivot is `≤ 251`, so every square evaluated
fits in a `u16`). -/
theorem trialDiv_prime {c : Nat} (h3 : 3 ≤ c) (hsm : c < 63001)
    (hc : c.Prime) : trialDiv c (primesBelowList c) = some true := by
  obtain ⟨w, hwp, hwlt, hwsq, hw251⟩ := exists_pivot_small h3 hsm
  have hwmem : w ∈ primesBelowList c := mem_primesBelowList.mpr ⟨hwp, hwlt⟩
  obtain ⟨l₁, q, l₂, heq, hall, hqfail⟩ :=
    split_at_first_fail (fun x => decide (x * x ≤ c)) (primesBelowList c)
      ⟨w, hwmem, by simpa using by omega⟩
  have hqgt : c < q * q := by
    have hq := hqfail
    simp only [decide_eq_true_eq] at hq
    omega
  have hpw := primesBelowList_pairwise c
  rw [heq, List.pairwise_append] at hpw
  obtain ⟨-, hpw2, -⟩ := hpw
  rw [List.pairwise_cons] at hpw2
  have hqw : q ≤ w := by
    have hwin : w ∈ l₁ ++ q :: l₂ := heq ▸ hwmem
    rcases List.mem_append.mp hwin with hin | hin
    · have := hall w hin
      simp only [decide_eq_true_eq] at this
      omega
    · rcases List.mem_cons.mp hin with h1 | h1
      · omega
      · exact le_of_lt (hpw2.1 w h1)
  have hq65 : q * q < 65536 := by nlinarith
  rw [heq]
  refine trialDiv_true_of c (by omega) l₁ q l₂ (fun x hx => ?_) hq65 hqgt
  have hxmem : x ∈ primesBelowList c := by rw [heq]; simp [hx]
  obtain ⟨hxp, hxlt⟩ := mem_primesBelowList.mp hxmem
  refine ⟨by simpa using hall x hx, ?_⟩
  rw [Ne, rustDiv_iff hxp.pos]
  intro hdvd
  rcases (Nat.Prime.eq_one_or_self_of_dvd hc x hdvd) with h1 | h1
  · exact hxp.one_lt.ne' h1
  · omega

/-- On a cache holding exactly the primes below a composite `c ≤ 65535`,
trial division reports `maybe_prime = false` (and does not panic: the least
factor of a composite `u16` is `≤ 251`, so the squares scanned before it
fit in a `u16`). -/
theorem trialDiv_composite {c : Nat} (h3 : 3 ≤ c) (hub : c ≤ 65535)
    (hc : ¬ c.Prime) :
    trialDiv c (primesBelowList c) = some false := by
  set k := c.minFac with hk
  have hkp : k.Prime := Nat.minFac_prime (by omega)
  have hkdvd : k ∣ c := Nat.minFac_dvd c
  have hksq : k * k ≤ c := by
    have := Nat.minFac_sq_le_self (by omega : 0 < c) hc
    simpa [pow_two] using this
  have hklt : k < c := by
    rcases Nat.lt_or_ge k c with h | h
    · exact h
    · exfalso
      have hle : k ≤ c := Nat.le_of_dvd (by omega) hkdvd
      have : k = c := by omega
      exact hc (this ▸ hkp)
  have hkmem : k ∈ primesBelowList c := mem_primesBelowList.mpr ⟨hkp, hklt⟩
  obtain ⟨l₁, l₂, heq⟩ := List.append_of_mem hkmem
  have hpw : List.Pairwise (· < ·) (primesBelowList c) := primesBelowList_pairwise c
  rw [heq] at hpw
  rw [List.pairwise_append] at hpw
  obtain ⟨hpw1, hpw2, hcross⟩ := hpw
  rw [List.pairwise_cons] at hpw2
  have hl₁lt : ∀ x ∈ l₁, x < k := fun x hx => hcross x hx k (by simp)
  -- the pivot prime sits beyond the least factor, so `l₂` is nonempty
  obtain ⟨w, hwp, hwlt, hwsq⟩ := exists_pivot h3
  have hwmem : w ∈ primesBelowList c := mem_primesBelowList.mpr ⟨hwp, hwlt⟩
  have hkw : k < w := by
    rcases Nat.lt_or_ge k w with h | h
    · exact h
    · nlinarith
  have hwl₂ : w ∈ l₂ := by
    rw [heq] at hwmem
    rcases List.mem_append.mp hwmem with h | h
    · exact absurd (hl₁lt w h) (by omega)
    · rcases List.mem_cons.mp h with h1 | h1
      · omega
      · exact h1
  rw [heq]
  refine trialDiv_false_of c (by omega) l₁ k l₂ (fun x hx => ?_) hksq
    ((rustDiv_iff hkp.pos).mpr hkdvd) (fun hnil => by simp [hnil] at hwl₂)
  have hxmem : x ∈ primesBelowList c := by rw [heq]; simp [hx]
  obtain ⟨hxp, _⟩ := mem_primesBelowList.mp hxmem
  have hxk : x < k := hl₁lt x hx
  refine ⟨by nlinarith, ?_⟩
  rw [Ne, rustDiv_iff hxp.pos]
  intro hdvd
  have := Nat.minFac_le_of_dvd hxp.two_le hdvd
  omega

/-- On a cache holding exactly the primes below a *prime* `c` at or above
the horizon (`63001 ≤ c ≤ 65535`), the inner loop panics: the cache
contains 257, no smaller prime divides `c`, and `257 * 257 = 66049`
overflows the `u16` multiplication. -/
theorem trialDiv_big_prime {c : Nat} (h1 : 63001 ≤ c) (h2 : c ≤ 65535)
    (hp : c.Prime) : trialDiv c (primesBelowList c) = none := by
  have h257 : (257 : Nat) ∈ primesBelowList c :=
    mem_primesBelowList.mpr ⟨by norm_num, by omega⟩
  obtain ⟨l₁, l₂, heq⟩ := List.append_of_mem h257
  have hpw := primesBelowList_pairwise c
  rw [heq, List.pairwise_append] at hpw
  obtain ⟨-, -, hcross⟩ := hpw
  rw [heq]
  refine trialDiv_none_of c (by omega) l₁ 257 l₂ (fun x hx => ?_)
    (by norm_num)
  have hxmem : x ∈ primesBelowList c := by rw [heq]; simp [hx]
  obtain ⟨hxp, hxlt⟩ := mem_primesBelowList.mp hxmem
  have hx257 : x < 257 := hcross x hx 257 (by simp)
  have hx251 : x ≤ 251 := by
    rcases Nat.lt_or_ge x 252 with h | h
    · omega
    · exfalso
      interval_cases x <;> norm_num at hxp
  refine ⟨by nlinarith, ?_⟩
  rw [Ne, rustDiv_iff hxp.pos]
  intro hdvd
  rcases hp.eq_one_or_self_of_dvd x hdvd with he | he
  · exact hxp.one_lt.ne' he
  · omega

/-- Combined: on a valid cache below the horizon the inner loop never
panics and decides primality of the candidate. -/
theorem trialDiv_eq {c : Nat} (h3 : 3 ≤ c) (hsm : c < 63001) :
    trialDiv c (primesBelowList c) = some (primeB c) := by
  by_cases hc : c.Prime
  · rw [trialDiv_prime h3 hsm hc, primeB_eq_true.mpr hc]
  · rw [trialDiv_composite h3 (by omega) hc]
    have hfalse : primeB c = false := by
      rw [← Bool.not_eq_true, primeB_eq_true]
      exact hc
    rw [hfalse]

theorem primesBelowList_succ_true {c : Nat} (hp : primeB c = true) :
    primesBelowList (c + 1) = primesBelowList c ++ [c] := by
  rw [primesBelowList_succ, hp]
  simp

theorem primesBelowList_succ_false {c : Nat} (hp : primeB c = false) :
    primesBelowList (c + 1) = primesBelowList c := by
  rw [primesBelowList_succ, hp]
  simp

theorem prime_nth_prime (n : Nat) : (Nat.nth Nat.Prime n).Prime :=
  Nat.nth_mem_of_infinite Nat.infinite_setOf_prime n

theorem count_gt_of_nth_lt {n c : Nat} (h : Nat.nth Nat.Prime n < c) :
    n < Nat.count Nat.Prime c := by
  have h1 : Nat.count Nat.Prime (Nat.nth Nat.Prime n + 1) = n + 1 := by
    rw [Nat.count_succ, Nat.count_nth_of_infinite Nat.infinite_setOf_prime,
      if_pos (prime_nth_prime n)]
  have h2 : Nat.count Nat.Prime (Nat.nth Nat.Prime n + 1) ≤
      Nat.count Nat.Prime c :=
    Nat.count_monotone Nat.Prime (show Nat.nth Nat.Prime n + 1 ≤ c by omega)
  omega

theorem le_nth_of_count_le {n c : Nat} (h : Nat.count Nat.Prime c ≤ n) :
    c ≤ Nat.nth Nat.Prime n := by
  by_contra hlt
  push_neg at hlt
  exact absurd (count_gt_of_nth_lt hlt) (by omega)

/-- When the cache already covers index `n`, the grow loop returns it
untouched, whatever the fuel or candidate. -/
theorem growPrimes_exit {fuel : Nat} {l : List Nat} {candidate n : Nat}
    (hlen : ¬ l.length ≤ n) :
    growPrimes fuel l candidate n = some l := by
  rw [growPrimes.eq_def, if_neg hlen]

/-- Partial correctness of the outer loop: whatever it returns from a valid
state (`c ≤ 65535`, every cache entry and the candidate a `u16`) is again
exactly the primes below some bound `≤ 65536`, now covering index `n`. -/
theorem growPrimes_state : ∀ (fuel c n : Nat) (l2 : List Nat), 3 ≤ c →
    c ≤ 65535 →
    growPrimes fuel (primesBelowList c) c n = some l2 →
    ∃ c2, 3 ≤ c2 ∧ c2 ≤ 65536 ∧ l2 = primesBelowList c2 ∧ n < l2.length
  | 0, c, n, l2, h3, hub, heq => by
    by_cases hlen : (primesBelowList c).length ≤ n
    · rw [growPrimes.eq_def, if_pos hlen] at heq
      simp at heq
    · rw [growPrimes_exit hlen] at heq
      have hl : primesBelowList c = l2 := Option.some_inj.mp heq
      exact ⟨c, h3, by omega, hl.symm, by rw [← hl]; omega⟩
  | f + 1, c, n, l2, h3, hub, heq => by
    by_cases hlen : (primesBelowList c).length ≤ n
    · rw [growPrimes.eq_def, if_pos hlen] at heq
      dsimp only at heq
      by_cases hp : c.Prime
      · rcases Nat.lt_or_ge c 63001 with hsm | hbig
        · rw [trialDiv_prime h3 hsm hp] at heq
          dsimp only at heq
          rw [if_pos (show c + 1 < 65536 by omega)] at heq
          rw [← primesBelowList_succ_true (primeB_eq_true.mpr hp)] at heq
          exact growPrimes_state f (c + 1) n l2 (by omega) (by omega) heq
        · rw [trialDiv_big_prime hbig hub hp] at heq
          simp at heq
      · rw [trialDiv_composite h3 hub hp] at heq
        dsimp only at heq
        by_cases hg : c + 1 < 65536
        · rw [if_pos hg] at heq
          rw [← primesBelowList_succ_false
            (by rw [← Bool.not_eq_true, primeB_eq_true]; exact hp)] at heq
          exact growPrimes_state f (c + 1) n l2 (by omega) (by omega) heq
        · rw [if_neg hg] at heq
          simp at heq
    · rw [growPrimes_exit hlen] at heq
      have hl : primesBelowList c = l2 := Option.some_inj.mp heq
      exact ⟨c, h3, by omega, hl.symm, by rw [← hl]; omega⟩

/-- Fuel sufficiency below the horizon: when index `n`'s prime lies under
`63001`, one unit of fuel per candidate up to that prime is enough for the
outer loop to finish (no `u16` computation overflows on the way). -/
theorem growPrimes_enough : ∀ (fuel c n : Nat), 3 ≤ c →
    Nat.nth Nat.Prime n < 63001 →
    Nat.nth Nat.Prime n + 2 ≤ c + fuel →
    ∃ l2, growPrimes fuel (primesBelowList c) c n = some l2
  | 0, c, n, h3, _, hfuel => by
    have hcount : n < Nat.count Nat.Prime c := count_gt_of_nth_lt (by omega)
    have hlen : ¬ (primesBelowList c).length ≤ n := by
      rw [length_primesBelowList]; omega
    exact ⟨_, growPrimes_exit hlen⟩
  | f + 1, c, n, h3, hn, hfuel => by
    by_cases hlen : (primesBelowList c).length ≤ n
    · have hcount : Nat.count Nat.Prime c ≤ n := by
        rw [← length_primesBelowList]; exact hlen
      have hsm : c < 63001 := by
        have := le_nth_of_count_le hcount
        omega
      rw [growPrimes.eq_def, if_pos hlen]
      dsimp only
      rw [trialDiv_eq h3 hsm]
      cases hp : primeB c with
      | true =>
        dsimp only
        rw [if_pos (show c + 1 < 65536 by omega)]
        rw [← primesBelowList_succ_true hp]
        exact growPrimes_enough f (c + 1) n (by omega) hn (by omega)
      | false =>
        dsimp only
        rw [if_pos (show c + 1 < 65536 by omega)]
        rw [← primesBelowList_succ_false hp]
        exact growPrimes_enough f (c + 1) n (by omega) hn (by omega)
    · exact ⟨_, growPrimes_exit hlen⟩

/-- The march panics past the horizon: from any valid state whose bound is
`≤ 63029` and any index `n` at or past the number of primes below `63029`,
the outer loop never succeeds — whatever the fuel, it reaches the prime
candidate 63029 with all primes below it (including 257) cached, and the
inner loop's `u16` square overflows there.  (Under release wrapping the
same square wraps to a garbage comparison and the run corrupts instead;
either way no correct value is produced.) -/
theorem growPrimes_panics (fuel : Nat) : ∀ (c n : Nat), 3 ≤ c → c ≤ 63029 →
    Nat.count Nat.Prime 63029 ≤ n →
    growPrimes fuel (primesBelowList c) c n = none := by
  induction fuel with
  | zero =>
    intro c n h3 hc hn
    have hlen : (primesBelowList c).length ≤ n := by
      rw [length_primesBelowList]
      exact le_trans (Nat.count_monotone Nat.Prime (by omega)) hn
    rw [growPrimes.eq_def, if_pos hlen]
  | succ fuel ih =>
    intro c n h3 hc hn
    have hlen : (primesBelowList c).length ≤ n := by
      rw [length_primesBelowList]
      exact le_trans (Nat.count_monotone Nat.Prime (by omega)) hn
    rw [growPrimes.eq_def, if_pos hlen]
    dsimp only
    rcases Nat.lt_or_ge c 63029 with hlt | hge
    · by_cases hp : c.Prime
      · have hsm : c < 63001 := by
          by_contra hbig
          push_neg at hbig
          exact no_prime_in_gap c hbig hlt hp
        rw [trialDiv_prime h3 hsm hp]
        dsimp only
        rw [if_pos (show c + 1 < 65536 by omega)]
        rw [← primesBelowList_succ_true (primeB_eq_true.mpr hp)]
        exact ih (c + 1) n (by omega) (by omega) hn
      · rw [trialDiv_composite h3 (by omega) hp]
        dsimp only
        rw [if_pos (show c + 1 < 65536 by omega)]
        rw [← primesBelowList_succ_false
          (by rw [← Bool.not_eq_true, primeB_eq_true]; exact hp)]
        exact ih (c + 1) n (by omega) (by omega) hn
    · have hceq : c = 63029 := by omega
      subst hceq
      rw [trialDiv_big_prime (by norm_num) (by norm_num) prime_63029]

theorem nth_prime_zero : Nat.nth Nat.Prime 0 = 2 := by
  have hc : Nat.count Nat.Prime 2 = 0 := by
    simp [Nat.count_succ, Nat.not_prime_zero, Nat.not_prime_one]
  have h := Nat.nth_count Nat.prime_two
  rw [hc] at h
  exact h

/-- A concrete (exponential, but computable) bound on the `n`-th prime, via
Bertrand's postulate. -/
theorem nth_prime_le_pow (n : Nat) : Nat.nth Nat.Prime n ≤ 2 ^ (n + 1) := by
  induction n with
  | zero => rw [nth_prime_zero]; norm_num
  | succ n ih =>
    obtain ⟨q, hq, hlt, hle⟩ :=
      Nat.exists_prime_lt_and_le_two_mul (Nat.nth Nat.Prime n)
        (by have := (prime_nth_prime n).two_le; omega)
    have hqn : Nat.nth Nat.Prime (Nat.count Nat.Prime q) = q := Nat.nth_count hq
    have hcount : n + 1 ≤ Nat.count Nat.Prime q := by
      by_contra hc
      push_neg at hc
      have hmono : Nat.nth Nat.Prime (Nat.count Nat.Prime q) ≤
          Nat.nth Nat.Prime n :=
        (Nat.nth_le_nth Nat.infinite_setOf_prime).mpr (by omega)
      rw [hqn] at hmono
      omega
    have hstep : Nat.nth Nat.Prime (n + 1) ≤ q := by
      have := (Nat.nth_le_nth Nat.infinite_setOf_prime).mpr hcount
      rw [hqn] at this
      exact this
    have hpow : (2 : Nat) * 2 ^ (n + 1) = 2 ^ (n + 1 + 1) := by ring
    omega

/-- Position `i` of the cache is the `(i+1)`-st prime. -/
theorem getElem_primesBelowList :
    ∀ (c i : Nat) (h : i < (primesBelowList c).length),
      (primesBelowList c)[i] = Nat.nth Nat.Prime i := by
  intro c
  induction c with
  | zero => intro i h; simp [primesBelowList] at h
  | succ c ih =>
    intro i h
    cases hp : primeB c with
    | false =>
      have hl : primesBelowList (c + 1) = primesBelowList c :=
        primesBelowList_succ_false hp
      rw [List.getElem_of_eq hl h]
      exact ih i (by rw [← hl]; exact h)
    | true =>
      have hl : primesBelowList (c + 1) = primesBelowList c ++ [c] :=
        primesBelowList_succ_true hp
      rw [List.getElem_of_eq hl h]
      by_cases hi : i < (primesBelowList c).length
      · rw [List.getElem_append_left hi]
        exact ih i hi
      · have hlen : i = (primesBelowList c).length := by
          have := h
          rw [hl] at this
          simp only [List.length_append, List.length_cons, List.length_nil] at this
          omega
        have hcnt : (primesBelowList c).length = Nat.count Nat.Prime c :=
          length_primesBelowList c
        rw [List.getElem_append_right (by omega)]
        have hprime : c.Prime := primeB_eq_true.mp hp
        have : Nat.nth Nat.Prime (Nat.count Nat.Prime c) = c := Nat.nth_count hprime
        simp only [hlen, hcnt]
        simpa using this.symm

theorem get?_primesBelowList {c n : Nat} (h : n < (primesBelowList c).length) :
    (primesBelowList c).get? n = some (Nat.nth Nat.Prime n) := by
  rw [List.get?_eq_getElem?, List.getElem?_eq_getElem h,
    getElem_primesBelowList c n h]

/-- A prime-free gap does not change the cache description. -/
theorem primesBelowList_gap {b c : Nat} (hbc : b ≤ c)
    (hnone : ∀ q, b ≤ q → q < c → ¬ q.Prime) :
    primesBelowList c = primesBelowList b := by
  unfold primesBelowList
  have hr : List.range c = List.range b ++ List.range' b (c - b) := by
    rw [List.range_eq_range', List.range_eq_range' b]
    have happ := List.range'_append 0 b (c - b) 1
    simp only [Nat.zero_add, Nat.one_mul] at happ
    rw [happ]
    congr 1
    omega
  rw [hr, List.filter_append]
  have hnil : (List.range' b (c - b)).filter primeB = [] := by
    rw [List.filter_eq_nil_iff]
    intro a ha
    rw [List.mem_range'] at ha
    obtain ⟨i, hi, rfl⟩ := ha
    rw [primeB_eq_true]
    exact hnone _ (by omega) (by omega)
  rw [hnil, List.append_nil]

/-- The cache determines its own bound: it equals the primes below one past
its own last element (`get_prime` restarts scanning there). -/
theorem getLast_canonical {c : Nat} (h3 : 3 ≤ c) :
    ∃ last, (primesBelowList c).getLast? = some last ∧
      primesBelowList c = primesBelowList (last + 1) ∧ 3 ≤ last + 1 ∧
      last.Prime ∧ last < c := by
  have hne := primesBelowList_ne_nil h3
  have hlast_mem : (primesBelowList c).getLast hne ∈ primesBelowList c :=
    List.getLast_mem hne
  obtain ⟨hp, hlt⟩ := mem_primesBelowList.mp hlast_mem
  have hmax : ∀ x ∈ primesBelowList c, x ≤ (primesBelowList c).getLast hne := by
    intro x hx
    have hconcat := List.dropLast_concat_getLast hne
    have hpw := primesBelowList_pairwise c
    rw [← hconcat] at hpw hx
    rw [List.pairwise_append] at hpw
    obtain ⟨-, -, hcross⟩ := hpw
    rcases List.mem_append.mp hx with h | h
    · exact le_of_lt (hcross x h _ (by simp))
    · simp at h; omega
  refine ⟨(primesBelowList c).getLast hne, List.getLast?_eq_getLast _ hne, ?_,
    by have := hp.two_le; omega, hp, hlt⟩
  refine primesBelowList_gap (by omega) ?_
  intro q hq1 hq2 hqp
  have hqmem : q ∈ primesBelowList c := mem_primesBelowList.mpr ⟨hqp, hq2⟩
  have := hmax q hqmem
  omega

/-- From any valid cache state, for an index whose prime lies below the
horizon, enough fuel makes `get_prime n` return the `(n+1)`-st prime, and
the new cache is again a valid state. -/
theorem get_prime_succeeds (l : List Nat) (n fuel : Nat) (h : PrimesState l)
    (hn : Nat.nth Nat.Prime n < 63001)
    (hfuel : Nat.nth Nat.Prime n + 2 ≤ fuel) :
    ∃ l2, get_prime fuel l n = some (Nat.nth Nat.Prime n, l2) ∧
      PrimesState l2 := by
  obtain ⟨c, h3, hc65, rfl⟩ := h
  obtain ⟨last, hlast, hcanon, h3l, hlastp, hlastlt⟩ := getLast_canonical h3
  have hguard : last + 1 < 65536 := by
    rcases Nat.lt_or_ge last 65535 with h | h
    · omega
    · exfalso
      have he : last = 65535 := by omega
      exact not_prime_65535 (he ▸ hlastp)
  unfold get_prime
  rw [hlast]
  dsimp only
  rw [if_pos hguard]
  rw [hcanon]
  obtain ⟨l2, hl2⟩ := growPrimes_enough fuel (last + 1) n h3l hn (by omega)
  rw [hl2]
  dsimp only
  obtain ⟨c2, h3c2, hc2, rfl, hlen⟩ :=
    growPrimes_state fuel (last + 1) n l2 h3l (by omega) hl2
  rw [get?_primesBelowList hlen]
  exact ⟨_, rfl, ⟨c2, h3c2, hc2, rfl⟩⟩

/-- A cache hit (`n` below the cache length) is answered from the cache, with
the cache unchanged — with any fuel, including none. -/
theorem get_prime_cache_hit (l : List Nat) (m fuel : Nat) (h : PrimesState l)
    (hm : m < l.length) :
    get_prime fuel l m = some (l[m], l) := by
  obtain ⟨c, h3, hc65, rfl⟩ := h
  have hne := primesBelowList_ne_nil h3
  have hlastmem : (primesBelowList c).getLast hne ∈ primesBelowList c :=
    List.getLast_mem hne
  obtain ⟨hlastp, hlastlt⟩ := mem_primesBelowList.mp hlastmem
  have hguard : (primesBelowList c).getLast hne + 1 < 65536 := by
    rcases Nat.lt_or_ge ((primesBelowList c).getLast hne) 65535 with h | h
    · omega
    · exfalso
      have he : (primesBelowList c).getLast hne = 65535 := by omega
      exact not_prime_65535 (he ▸ hlastp)
  unfold get_prime
  rw [List.getLast?_eq_getLast _ hne]
  dsimp only
  rw [if_pos hguard]
  rw [growPrimes_exit (by omega)]
  dsimp only
  rw [List.get?_eq_getElem?, List.getElem?_eq_getElem hm]

/-- From the freshly-constructed cache `[2]`, any index at or past the
number of primes below `63029` makes `get_prime` panic, whatever the
fuel: the march crosses the horizon before the cache can cover the index. -/
theorem get_prime_panics (fuel n : Nat)
    (hn : Nat.count Nat.Prime 63029 ≤ n) :
    get_prime fuel [2] n = none := by
  have h2 : ([2] : List Nat) = primesBelowList 3 := primesBelowList_three.symm
  unfold get_prime
  rw [show ([2] : List Nat).getLast? = some 2 from rfl]
  dsimp only
  rw [if_pos (by norm_num)]
  rw [h2, show (2 + 1 : Nat) = 3 from rfl]
  rw [growPrimes_panics fuel 3 n (by norm_num) (by norm_num) hn]

/-- Full characterization of `add_int` on a valid state whose current index
needs a prime below the horizon: it succeeds, the accumulator gains
`prime(index) * number` with `i32` wrap-around, the index steps modulo the
bound, and the cache stays valid. -/
theorem add_int_ok (g : DCHashGenerator) (number : Int)
    (hidx : g.index < MAX_PRIME_NUMBERS) (hst : PrimesState g.primes)
    (hn : Nat.nth Nat.Prime g.index < 63001) :
    ∃ g2, add_int g number = .ok g2 ∧
      g2.hash = Int.bmod
        (g.hash + (Nat.nth Nat.Prime g.index : Int) * number) (2 ^ 32) ∧
      g2.index = (g.index + 1) % MAX_PRIME_NUMBERS ∧
      g2.index < MAX_PRIME_NUMBERS ∧ PrimesState g2.primes := by
  obtain ⟨l2, hl2, hst2⟩ := get_prime_succeeds g.primes g.index
    (primeFuel g.index) hst hn
    (by have := nth_prime_le_pow g.index; unfold primeFuel; omega)
  refine ⟨⟨Int.bmod (g.hash + (Nat.nth Nat.Prime g.index : Int) * number)
      (2 ^ 32), (g.index + 1) % MAX_PRIME_NUMBERS, l2⟩, ?_, rfl, rfl,
      Nat.mod_lt _ (by norm_num [MAX_PRIME_NUMBERS]), hst2⟩
  unfold add_int
  rw [if_pos hidx, hl2]

/-- Whatever `add_int` does from a state with the index in bounds, it is
not the index assertion that fires, and a successful result keeps the index
in bounds.  (Unlike success, this needs no horizon hypothesis: past the
horizon the call fails with the sieve's panic, not the assert.) -/
theorem add_int_not_assert (g : DCHashGenerator) (number : Int)
    (hidx : g.index < MAX_PRIME_NUMBERS) :
    add_int g number ≠ .error .assertFailed ∧
    ∀ g2, add_int g number = .ok g2 → g2.index < MAX_PRIME_NUMBERS := by
  unfold add_int
  rw [if_pos hidx]
  cases hg : get_prime (primeFuel g.index) g.primes g.index with
  | none => exact ⟨fun h => by simp at h, fun g2 h => by simp at h⟩
  | some v =>
    obtain ⟨p, primes2⟩ := v
    dsimp only
    refine ⟨fun h => by simp at h, fun g2 h => ?_⟩
    injection h with h2
    rw [← h2]
    exact Nat.mod_lt _ (by norm_num [MAX_PRIME_NUMBERS])

theorem blobLoop_not_assert : ∀ (bytes : List Nat) (g : DCHashGenerator),
    g.index < MAX_PRIME_NUMBERS →
    blobLoop g bytes ≠ .error .assertFailed ∧
    ∀ g2, blobLoop g bytes = .ok g2 → g2.index < MAX_PRIME_NUMBERS
  | [], g, hidx =>
    ⟨fun h => by simp [blobLoop] at h,
     fun g2 h => by
       rw [blobLoop] at h
       injection h with h2
       rw [← h2]
       exact hidx⟩
  | b :: rest, g, hidx => by
    obtain ⟨herr, hok⟩ := add_int_not_assert g (Int.ofNat b) hidx
    rw [blobLoop]
    cases ha : add_int g (Int.ofNat b) with
    | error e =>
      rw [ha] at herr
      exact ⟨herr, fun g2 h => by simp at h⟩
    | ok g2 => exact blobLoop_not_assert rest g2 (hok g2 ha)

theorem add_blob_not_assert (g : DCHashGenerator) (blob : List Nat)
    (hidx : g.index < MAX_PRIME_NUMBERS) :
    add_blob g blob ≠ .error .assertFailed ∧
    ∀ g2, add_blob g blob = .ok g2 → g2.index < MAX_PRIME_NUMBERS := by
  unfold add_blob
  cases i32ofNat blob.length with
  | none => exact ⟨fun h => by simp at h, fun g2 h => by simp at h⟩
  | some len =>
    dsimp only
    obtain ⟨herr, hok⟩ := add_int_not_assert g len hidx
    cases ha : add_int g len with
    | error e =>
      rw [ha] at herr
      exact ⟨herr, fun g2 h => by simp at h⟩
    | ok g2 => exact blobLoop_not_assert blob g2 (hok g2 ha)

theorem applyOp_not_assert (g : DCHashGenerator) (op : HashOp)
    (hidx : g.index < MAX_PRIME_NUMBERS) :
    applyOp g op ≠ .error .assertFailed ∧
    ∀ g2, applyOp g op = .ok g2 → g2.index < MAX_PRIME_NUMBERS := by
  cases op with
  | int n => exact add_int_not_assert g n hidx
  | blob b => exact add_blob_not_assert g b hidx
  | str s => exact add_blob_not_assert g s hidx

theorem runOps_not_assert : ∀ (ops : List HashOp) (g : DCHashGenerator),
    g.index < MAX_PRIME_NUMBERS →
    runOps g ops ≠ .error .assertFailed ∧
    ∀ g2, runOps g ops = .ok g2 → g2.index < MAX_PRIME_NUMBERS
  | [], g, hidx =>
    ⟨fun h => by simp [runOps] at h,
     fun g2 h => by
       rw [runOps] at h
       injection h with h2
       rw [← h2]
       exact hidx⟩
  | op :: rest, g, hidx => by
    obtain ⟨herr, hok⟩ := applyOp_not_assert g op hidx
    rw [runOps]
    cases ha : applyOp g op with
    | error e =>
      rw [ha] at herr
      exact ⟨herr, fun g2 h => by simp at h⟩
    | ok g2 => exact runOps_not_assert rest g2 (hok g2 ha)

/-- The per-byte loop is the fold of `add_int` over the bytes. -/
theorem blobLoop_eq_foldlM (bytes : List Nat) :
    ∀ g : DCHashGenerator,
      blobLoop g bytes =
        List.foldlM (fun h x => add_int h x) g (bytes.map Int.ofNat) := by
  induction bytes with
  | nil => intro g; rfl
  | cons b rest ih =>
    intro g
    rw [List.map_cons, List.foldlM_cons, blobLoop]
    cases add_int g (Int.ofNat b) with
    | error e => rfl
    | ok g2 =>
      dsimp only
      rw [ih g2]
      rfl

end Hg

/-- Claim C5, counterexample.  The claim promises the `(n+1)`-st prime for
*every* `n ≥ 0`; but `n` and the cached primes are `u16`, and for
`n = 65535` (a perfectly valid input) `get_prime` on the fresh cache `[2]`
never returns a value: the candidate march reaches the prime 63029 with
every smaller prime (including 257) cached, and the trial square
`257 * 257 = 66049` overflows the `u16` multiplication — a panic under
checked arithmetic, a garbage comparison (followed by the inner assert or a
corrupted run) under release wrapping.  The fuel 70000 exceeds the 65535
candidates a `u16` can ever range over; `get_prime_panics` proves the same
for every fuel.  The 65536th prime, 821641, would not fit in a `u16`
anyway. -/
theorem claim_C5_counterexample :
    Hg.get_prime 70000 [2] 65535 = none :=
  Hg.get_prime_panics 70000 65535
    (le_trans (Hg.count_prime_le_self 63029) (by norm_num))

/-- Claim C5 (corrected).  The returns-the-`(n+1)`-st-prime promise holds
exactly up to the `u16` overflow horizon: when the `(n+1)`-st prime
(`Nat.nth Nat.Prime n`) is below `63001 = 251 ^ 2`, `get_prime n` on any
cache of the generator's own making returns it once given enough fuel for
the candidate loop, leaving the cache again a valid state; a request at or
below an already-computed index is answered from the cache — any fuel, even
zero — with the cache unchanged; but past the horizon (any `n` at or past
the number of primes below 63029, the first prime whose trial division
evaluates `257 * 257 > u16::MAX`) `get_prime n` from the fresh cache never
returns a value: the sieve's `u16` multiplication overflows. -/
theorem claim_C5_get_prime (l : List Nat) (n : Nat) (h : Hg.PrimesState l) :
    (Nat.nth Nat.Prime n < 63001 →
      ∃ fuel l2, Hg.get_prime fuel l n = some (Nat.nth Nat.Prime n, l2) ∧
        Hg.PrimesState l2) ∧
    (∀ fuel m, (hm : m < l.length) →
      Hg.get_prime fuel l m = some (l[m], l)) ∧
    (Nat.count Nat.Prime 63029 ≤ n →
      ∀ fuel, Hg.get_prime fuel [2] n = none) := by
  refine ⟨fun hn => ?_, fun fuel m hm => ?_, fun hn fuel => ?_⟩
  · obtain ⟨l2, hl2, hstate⟩ :=
      Hg.get_prime_succeeds l n (Nat.nth Nat.Prime n + 2) h hn (by omega)
    exact ⟨Nat.nth Nat.Prime n + 2, l2, hl2, hstate⟩
  · exact Hg.get_prime_cache_hit l m fuel h hm
  · exact Hg.get_prime_panics fuel n hn

/-- Claim C5, witness: from the freshly-constructed cache `[2]`,
`get_prime 3` returns the fourth prime 7 (its value is below the horizon);
`get_prime 0` is a cache hit returning 2 with no fuel and the cache
untouched; and at index 65535 the sieve panics for any fuel. -/
theorem claim_C5_witness :
    (∃ fuel l2, Hg.get_prime fuel [2] 3 = some (Nat.nth Nat.Prime 3, l2) ∧
      Hg.PrimesState l2) ∧
    Hg.get_prime 0 [2] 0 = some (2, [2]) ∧
    Hg.get_prime 5 [2] 65535 = none := by
  refine ⟨?_, ?_, ?_⟩
  · exact (claim_C5_get_prime [2] 3 ⟨3, by norm_num, by norm_num, by decide⟩).1
      (by have := Hg.nth_prime_le_pow 3; omega)
  · have := (claim_C5_get_prime [2] 0
      ⟨3, by norm_num, by norm_num, by decide⟩).2.1 0 0 (by decide)
    simpa using this
  · exact (claim_C5_get_prime [2] 65535
      ⟨3, by norm_num, by norm_num, by decide⟩).2.2
      (le_trans (Hg.count_prime_le_self 63029) (by norm_num)) 5

/-- Claim C8, counterexample.  The claim promises success on *every*
generator state with index below the fixed bound; but the state with
accumulator 0, index 1 and cache `[65519]` (directly constructible in the
module — the fields are a `Vec<u16>` and a `u16`, and 1 < 10000) makes
`add_int 1` panic instead of updating anything: `get_prime(1)` computes
`primes[0] * primes[0] = 65519 * 65519` in `u16`, which overflows (under
release wrapping the wrapped square 289 passes the bound check, the
division test fails, and `assert!(j < len)` fires — a panic either way).
The same `u16` square overflow is reached from the generator's own canonical
cache growth once an index needs a prime past `63001` (see
`claim_C5_counterexample`), so the universal success claim also overstates
the canonical runs. -/
theorem claim_C8_counterexample :
    (⟨0, 1, [65519]⟩ : Hg.DCHashGenerator).index < Hg.MAX_PRIME_NUMBERS ∧
    Hg.add_int ⟨0, 1, [65519]⟩ 1 = .error .primeLookupFailed := by decide

/-- Claim C8 (corrected).  On every generator state with index below the
fixed bound, a prime cache of the generator's own making, and the current
index's prime below the `u16` overflow horizon `63001`, `add_int n`
succeeds and sets the accumulator to `old + prime(index) * n` under
wrapping 32-bit two's-complement arithmetic (`Int.bmod · (2^32)`, never
saturating), keeps it inside the `i32` range, and sets the index to
`(index + 1) mod` the fixed bound; `get_hash` then returns the
accumulator's bit pattern reinterpreted as unsigned 32-bit: a value below
`2^32` congruent to the accumulator modulo `2^32`.  Past the horizon the
sieve's `u16` arithmetic panics instead (see `claim_C8_counterexample`). -/
theorem claim_C8_add_int (g : Hg.DCHashGenerator) (number : Int)
    (hidx : g.index < Hg.MAX_PRIME_NUMBERS)
    (hst : Hg.PrimesState g.primes)
    (hn : Nat.nth Nat.Prime g.index < 63001) :
    ∃ g2, Hg.add_int g number = .ok g2 ∧
      g2.hash = Int.bmod
        (g.hash + (Nat.nth Nat.Prime g.index : Int) * number) (2 ^ 32) ∧
      g2.index = (g.index + 1) % Hg.MAX_PRIME_NUMBERS ∧
      -(2 ^ 31) ≤ g2.hash ∧ g2.hash < 2 ^ 31 ∧
      (Hg.get_hash g2 : Int) % 2 ^ 32 = g2.hash % 2 ^ 32 ∧
      Hg.get_hash g2 < 2 ^ 32 := by
  obtain ⟨g2, hok, hhash, hindex, -, -⟩ := Hg.add_int_ok g number hidx hst hn
  have hlo : -(2 ^ 31) ≤ g2.hash := by
    rw [hhash]
    have := Int.le_bmod (x := g.hash + (Nat.nth Nat.Prime g.index : Int) * number)
      (show 0 < 2 ^ 32 by norm_num)
    norm_num at this ⊢
    omega
  have hhi : g2.hash < 2 ^ 31 := by
    rw [hhash]
    have := Int.bmod_lt (x := g.hash + (Nat.nth Nat.Prime g.index : Int) * number)
      (show 0 < 2 ^ 32 by norm_num)
    norm_num at this ⊢
    omega
  have hmod0 : (0 : Int) ≤ g2.hash % 2 ^ 32 :=
    Int.emod_nonneg _ (by norm_num)
  refine ⟨g2, hok, hhash, hindex, hlo, hhi, ?_, ?_⟩
  · unfold Hg.get_hash
    rw [Int.toNat_of_nonneg hmod0, Int.emod_emod_of_dvd _ (by norm_num)]
  · unfold Hg.get_hash
    have hlt : g2.hash % 2 ^ 32 < 2 ^ 32 :=
      Int.emod_lt_of_pos _ (by norm_num)
    omega

/-- Claim C8, witness: `add_int 5` on the default generator (index 0, whose
prime 2 is far below the horizon). -/
theorem claim_C8_witness :
    ∃ g2, Hg.add_int Hg.DCHashGenerator.default 5 = .ok g2 ∧
      g2.hash = Int.bmod
        (Hg.DCHashGenerator.default.hash +
          (Nat.nth Nat.Prime Hg.DCHashGenerator.default.index : Int) * 5)
        (2 ^ 32) ∧
      g2.index = (Hg.DCHashGenerator.default.index + 1) %
        Hg.MAX_PRIME_NUMBERS ∧
      -(2 ^ 31) ≤ g2.hash ∧ g2.hash < 2 ^ 31 ∧
      (Hg.get_hash g2 : Int) % 2 ^ 32 = g2.hash % 2 ^ 32 ∧
      Hg.get_hash g2 < 2 ^ 32 :=
  claim_C8_add_int Hg.DCHashGenerator.default 5 (by decide)
    ⟨3, by norm_num, by norm_num, by decide⟩
    (by show Nat.nth Nat.Prime 0 < 63001
        have := Hg.nth_prime_le_pow 0
        omega)

/-- Claim C9 (confirmed).  `add_blob b` (for `b` short enough that the Rust
length conversion does not panic) leaves the generator in exactly the state
of running `add_int (len b)` followed by `add_int x` for each byte `x` of
`b` in order — one single fold of `add_int` over the contribution sequence
`len b :: bytes`, so the result depends only on that ordered sequence and
not on call grouping; and `add_string s` is literally `add_blob` on `s`'s
UTF-8 bytes. -/
theorem claim_C9_blob_decomposition (g : Hg.DCHashGenerator)
    (blob : List Nat) (hlen : blob.length < 2 ^ 31) :
    Hg.add_blob g blob =
      List.foldlM (fun h x => Hg.add_int h x) g
        ((blob.length : Int) :: blob.map Int.ofNat) ∧
    Hg.add_string g blob =
      List.foldlM (fun h x => Hg.add_int h x) g
        ((blob.length : Int) :: blob.map Int.ofNat) := by
  have hmain : Hg.add_blob g blob =
      List.foldlM (fun h x => Hg.add_int h x) g
        ((blob.length : Int) :: blob.map Int.ofNat) := by
    unfold Hg.add_blob Hg.i32ofNat
    rw [if_pos hlen]
    dsimp only
    rw [List.foldlM_cons]
    cases Hg.add_int g (blob.length : Int) with
    | error e => rfl
    | ok g2 =>
      dsimp only
      rw [Hg.blobLoop_eq_foldlM blob g2]
      rfl
  exact ⟨hmain, hmain⟩

/-- Claim C9, witness: the blob `[4, 9]` from the default generator. -/
theorem claim_C9_witness :
    Hg.add_blob Hg.DCHashGenerator.default [4, 9] =
      List.foldlM (fun h x => Hg.add_int h x) Hg.DCHashGenerator.default
        ((([4, 9] : List Nat).length : Int) ::
          ([4, 9] : List Nat).map Int.ofNat) ∧
    Hg.add_string Hg.DCHashGenerator.default [4, 9] =
      List.foldlM (fun h x => Hg.add_int h x) Hg.DCHashGenerator.default
        ((([4, 9] : List Nat).length : Int) ::
          ([4, 9] : List Nat).map Int.ofNat) :=
  claim_C9_blob_decomposition Hg.DCHashGenerator.default [4, 9] (by norm_num)

/-- Claim C10 (confirmed).  Starting from the `Default` generator state
(index 0), any sequence of public `add_int` / `add_blob` / `add_string`
calls keeps the rotating index strictly below `MAX_PRIME_NUMBERS` (the index
is below the bound in every state a successful run produces), so the
assertion at the top of `add_int` can never fail: no run ever stops with the
assert's panic. -/
theorem claim_C10_index_invariant (ops : List Hg.HashOp) :
    Hg.runOps Hg.DCHashGenerator.default ops ≠ .error .assertFailed ∧
    (∀ g2, Hg.runOps Hg.DCHashGenerator.default ops = .ok g2 →
      g2.index < Hg.MAX_PRIME_NUMBERS) :=
  Hg.runOps_not_assert ops Hg.DCHashGenerator.default (by decide)

/-- Claim C10, witness: the run `[add_int 3, add_blob [1]]` from default. -/
theorem claim_C10_witness :
    Hg.runOps Hg.DCHashGenerator.default [.int 3, .blob [1]] ≠
      .error .assertFailed ∧
    (⟨14, 3, [2, 3, 5]⟩ : Hg.DCHashGenerator).index <
      Hg.MAX_PRIME_NUMBERS :=
  ⟨(claim_C10_index_invariant [.int 3, .blob [1]]).1,
   (claim_C10_index_invariant [.int 3, .blob [1]]).2 ⟨14, 3, [2, 3, 5]⟩
     (by decide)⟩

/-- Claim C7, amended.  The partial model is *not* discarded on failure:
whatever `parse` consumes and wherever it stops, every import reduced before
the stop remains in the `DC_FILE` static — the import list only ever grows
by appending, so a failed run leaves its partial schema observable and a
subsequent parse continues from it rather than from an empty model. -/
theorem claim_C7_amended (f : Parser.DCFile) (decls : List Parser.TypeDecl) :
    ∃ rest, ((Parser.runParse f decls).2).imports = f.imports ++ rest :=
  Parser.runParse_appends decls f

/-- Claim C2 (code bug).  On the (little-endian) host, `add_u32(0x01020304)`
does not append `[0x04, 0x03, 0x02, 0x01]`: the source masks each byte in
place and then shifts it further *left* before the `as u8` cast, so every
pushed byte truncates to zero.  The call succeeds and appends
`[0, 0, 0, 0]`. -/
theorem claim_C2_bug :
    (Dg.add_u32 Dg.Datagram.new 0x01020304).1.buffer = [0, 0, 0, 0] ∧
    (Dg.add_u32 Dg.Datagram.new 0x01020304).2 = .ok () := by
  rw [Dg.add_u32_eq]
  exact ⟨rfl, rfl⟩

/-- Claim C4 (code bug).  `add_string` of the one-byte string `"a"` succeeds
but grows the buffer by only the two length-tag bytes (themselves zeroed by
the `add_u16` bug) and never appends the UTF-8 byte `0x61`: the source
returns `Ok` without copying the string (see its `FIXME`), so the buffer is
`[0, 0]`, not the claimed tag-plus-bytes of length 3. -/
theorem claim_C4_bug :
    Dg.add_string Dg.Datagram.new [0x61] = (⟨[0, 0]⟩, .ok ()) := by
  rw [Dg.add_string_eq]
  rfl
